import Mathlib

/-!
# simple_blockchain: a shallow embedding of `blockchain2023.go`

The Go program keeps an append-only chain of blocks. Each block carries a list
of records, a Merkle root over them, the hash of its predecessor and a
proof-of-work nonce. This file embeds the program's data types and functions
and proves properties of them.

Conventions of the embedding.

* A Go `string` is a Lean `String` (the strings that are well-formed UTF-8 text);
  `[]byte(s)` is its UTF-8 encoding (`goBytes`).
* Go's `int64`, and `int` on 64-bit targets, are 64-bit two's-complement
  integers. They are embedded as `Int`; the one arithmetic operation of the
  program, `b.nonce++`, wraps around, which `wrapInt64` makes explicit.
* `crypto/sha256` followed by `hex.EncodeToString` is `sha256Hex`, implemented
  below from FIPS 180-4. The functions of the program take the digest as their
  first argument `digest`; the program itself runs them at `sha256Hex`.
* `time.Now().Unix()` is an input of the function that reads it (`now`).
* The proof-of-work loop `for { ... }` has no bound. `calculateHash` takes the
  number of loop iterations it may run (`fuel`) and returns `none` when the loop
  has not ended by then. A Go run-time panic (slice or index out of range) is
  `none` as well: no value is returned. With the program's digest the slice in
  `calculateHash` never panics (`sha256Hex_slice_in_range`), and the index in
  `buildMerkleTree` never does for any digest (`NewMerkleTree_total`).
* Pointers: a `*Block` is embedded as the `Block` value it points to. The only
  block the program mutates through a pointer is the one handed to `AddBlock`,
  before it is appended. Precondition of the embedding of `AddBlock`: that block
  is not one of the blocks already in the chain. The program's only call, in
  `CreateNewBlock`, hands it a freshly built block. Handed a block of the chain,
  the Go code would also rewrite that element in place; the block it appends is
  the one of the embedding in that case too.
-/

/-! ## SHA-256 and the hexadecimal digest -/

namespace Sha256

/-- Round constants of SHA-256 (first 32 bits of the fractional parts of the cube
roots of the first 64 primes). -/
def K : List Nat :=
  [1116352408, 1899447441, 3049323471, 3921009573, 961987163, 1508970993, 2453635748, 2870763221,
   3624381080, 310598401, 607225278, 1426881987, 1925078388, 2162078206, 2614888103, 3248222580,
   3835390401, 4022224774, 264347078, 604807628, 770255983, 1249150122, 1555081692, 1996064986,
   2554220882, 2821834349, 2952996808, 3210313671, 3336571891, 3584528711, 113926993, 338241895,
   666307205, 773529912, 1294757372, 1396182291, 1695183700, 1986661051, 2177026350, 2456956037,
   2730485921, 2820302411, 3259730800, 3345764771, 3516065817, 3600352804, 4094571909, 275423344,
   430227734, 506948616, 659060556, 883997877, 958139571, 1322822218, 1537002063, 1747873779,
   1955562222, 2024104815, 2227730452, 2361852424, 2428436474, 2756734187, 3204031479, 3329325298]

/-- Reduction of a natural number to a 32-bit word. -/
def mask32 (x : Nat) : Nat := x % 4294967296

/-- Rotation of a 32-bit word to the right by `n` bits. -/
def rotr (x n : Nat) : Nat := (x >>> n) ||| mask32 (x <<< (32 - n))

def bigSigma0 (a : Nat) : Nat := rotr a 2 ^^^ rotr a 13 ^^^ rotr a 22

def bigSigma1 (e : Nat) : Nat := rotr e 6 ^^^ rotr e 11 ^^^ rotr e 25

def smallSigma0 (x : Nat) : Nat := rotr x 7 ^^^ rotr x 18 ^^^ (x >>> 3)

def smallSigma1 (x : Nat) : Nat := rotr x 17 ^^^ rotr x 19 ^^^ (x >>> 10)

def ch (e f g : Nat) : Nat := (e &&& f) ^^^ ((4294967295 - e) &&& g)

def maj (a b c : Nat) : Nat := (a &&& b) ^^^ (a &&& c) ^^^ (b &&& c)

/-- The eight working words of SHA-256. -/
structure State where
  a : Nat
  b : Nat
  c : Nat
  d : Nat
  e : Nat
  f : Nat
  g : Nat
  h : Nat

/-- Initial hash value (square roots of the first eight primes). -/
def init : State :=
  ⟨1779033703, 3144134277, 1013904242, 2773480762,
   1359893119, 2600822924, 528734635, 1541459225⟩

/-- Message padding: a `0x80` byte, zero bytes up to 56 modulo 64, and the bit
length of the message as a 64-bit big-endian number. -/
def pad (msg : List Nat) : List Nat :=
  let bits := 8 * msg.length
  msg ++ 128 :: List.replicate ((119 - msg.length % 64) % 64) 0
    ++ (List.range 8).map (fun i => (bits >>> (8 * (7 - i))) % 256)

/-- Big-endian 32-bit words of a byte sequence. -/
def toWords : List Nat → List Nat
  | b0 :: b1 :: b2 :: b3 :: rest => (((b0 * 256 + b1) * 256 + b2) * 256 + b3) :: toWords rest
  | _ => []

/-- Message schedule, most recent word first: `n` more words are added to `r`. -/
def schedule : Nat → List Nat → List Nat
  | 0, r => r
  | n + 1, r =>
    schedule n (mask32 (smallSigma1 (r.getD 1 0) + r.getD 6 0 + smallSigma0 (r.getD 14 0)
      + r.getD 15 0) :: r)

/-- One round of the compression function, on the pair (round constant, schedule word). -/
def round (s : State) (kw : Nat × Nat) : State :=
  let t1 := s.h + bigSigma1 s.e + ch s.e s.f s.g + kw.1 + kw.2
  let t2 := bigSigma0 s.a + maj s.a s.b s.c
  ⟨mask32 (t1 + t2), s.a, s.b, s.c, mask32 (s.d + t1), s.e, s.f, s.g⟩

/-- Compression of one 16-word block into the state. -/
def compress (s : State) (block : List Nat) : State :=
  let w := (schedule 48 block.reverse).reverse
  let t := (K.zip w).foldl round s
  ⟨mask32 (s.a + t.a), mask32 (s.b + t.b), mask32 (s.c + t.c), mask32 (s.d + t.d),
   mask32 (s.e + t.e), mask32 (s.f + t.f), mask32 (s.g + t.g), mask32 (s.h + t.h)⟩

/-- Compression of `n` consecutive 16-word blocks. -/
def blocks : Nat → State → List Nat → State
  | 0, s, _ => s
  | n + 1, s, ws => blocks n (compress s (ws.take 16)) (ws.drop 16)

/-- SHA-256 of a byte sequence, as the final state. -/
def sum (bytes : List Nat) : State :=
  let ws := toWords (pad bytes)
  blocks (ws.length / 16) init ws

/-- One lowercase hexadecimal digit. -/
def hexDigit (n : Nat) : Char :=
  "0123456789abcdef".data.getD n '0'

/-- The eight hexadecimal digits of a 32-bit word, most significant first. -/
def hexWord (w : Nat) : List Char :=
  (List.range 8).map (fun i => hexDigit ((w >>> (4 * (7 - i))) % 16))

/-- Lowercase hexadecimal rendering of the 256-bit digest (`hex.EncodeToString`). -/
def hex (s : State) : String :=
  ⟨hexWord s.a ++ hexWord s.b ++ hexWord s.c ++ hexWord s.d
    ++ hexWord s.e ++ hexWord s.f ++ hexWord s.g ++ hexWord s.h⟩

end Sha256

/-- UTF-8 encoding of one character. -/
def utf8Char (c : Char) : List Nat :=
  let v := c.toNat
  if v < 128 then [v]
  else if v < 2048 then [192 + v / 64, 128 + v % 64]
  else if v < 65536 then [224 + v / 4096, 128 + v / 64 % 64, 128 + v % 64]
  else [240 + v / 262144, 128 + v / 4096 % 64, 128 + v / 64 % 64, 128 + v % 64]

/-- The conversion `[]byte(s)` of Go: the bytes of the string. -/
def goBytes (s : String) : List Nat := s.data.flatMap utf8Char

/-- The digest of the program: `h := sha256.New(); h.Write([]byte(s));
hex.EncodeToString(h.Sum(nil))`. -/
def sha256Hex (s : String) : String := Sha256.hex (Sha256.sum (goBytes s))

/-! ## Machine integers and formatting -/

/-- Reduction of an integer to the 64-bit two's-complement range of Go's `int`. -/
def wrapInt64 (x : Int) : Int :=
  (x + 9223372036854775808) % 18446744073709551616 - 9223372036854775808

/-- The verb `%d` of `fmt.Sprintf` on an integer: decimal digits, `-` first when
negative. -/
def fmtInt (n : Int) : String := toString n

/-- The verb `%v` of `fmt.Sprintf` on a `[]string`: the elements, unquoted,
separated by single spaces, between square brackets. -/
def fmtStrings (xs : List String) : String := "[" ++ " ".intercalate xs ++ "]"

/-- The slice expression `s[:4]` of Go: the first four bytes of `s`; a run-time
panic (`none`) when `s` has fewer than four bytes. -/
def sliceTo4 (s : String) : Option (List Nat) :=
  if (goBytes s).length < 4 then none else some ((goBytes s).take 4)

/-- The comparison `s[:4] == "0000"` of Go (`none` when the slice panics). -/
def leadsWith0000 (s : String) : Option Bool :=
  (sliceTo4 s).map (fun p => decide (p = goBytes "0000"))

/-! ## Merkle tree -/

/-- Go: `type MerkleTree struct { transactions []string; root string }`. -/
structure MerkleTree where
  transactions : List String
  root : String
deriving DecidableEq

/-- Go: `func (mt *MerkleTree) hashTransaction(transaction string) string`. -/
def MerkleTree.hashTransaction (digest : String → String) (transaction : String) : String :=
  digest transaction

/-- One pass of the inner part of the loop of `buildMerkleTree` over a layer:
the `for i := 0; i < len-1; i += 2` loop hashes the concatenation of each
adjacent pair, and the `if len%2 != 0` branch appends the last element as it is. -/
def MerkleTree.reduceLayer (digest : String → String) : List String → List String
  | x :: y :: rest =>
    MerkleTree.hashTransaction digest (x ++ y) :: MerkleTree.reduceLayer digest rest
  | [x] => [x]
  | [] => []

/-- The loop `for len(hashedTransactions) > 1 { ... }` of `buildMerkleTree`, run
for at most `rounds` rounds. -/
def MerkleTree.reduceLoop (digest : String → String) : Nat → List String → List String
  | 0, layer => layer
  | rounds + 1, layer =>
    if 1 < layer.length then
      MerkleTree.reduceLoop digest rounds (MerkleTree.reduceLayer digest layer)
    else layer

/-- Go: `func (mt *MerkleTree) buildMerkleTree()`. The loop is given as many
rounds as the leaf layer has elements, which is more than it uses
(`MerkleTree.reduceLoop_length_le_one`). The final `hashedTransactions[0]` panics
on an empty layer (`none`). -/
def MerkleTree.buildMerkleTree (digest : String → String) (mt : MerkleTree) :
    Option MerkleTree :=
  if mt.transactions.length = 0 then some mt
  else
    let hashedTransactions := mt.transactions.map (MerkleTree.hashTransaction digest)
    match MerkleTree.reduceLoop digest hashedTransactions.length hashedTransactions with
    | [] => none
    | r :: _ => some { mt with root := r }

/-- Go: `func NewMerkleTree(transactions []string) *MerkleTree`. -/
def NewMerkleTree (digest : String → String) (transactions : List String) :
    Option MerkleTree :=
  MerkleTree.buildMerkleTree digest { transactions := transactions, root := "" }

/-! ## Blocks and proof-of-work -/

/-- Go: `type Block struct { index int; timestamp int64; transactions []string;
previousHash, hash, merkleRoot string; nonce int }`. -/
structure Block where
  index : Int
  timestamp : Int
  transactions : List String
  previousHash : String
  hash : String
  merkleRoot : String
  nonce : Int
deriving DecidableEq

/-- The serialization hashed by proof-of-work, for nonce `n`:
the result of `fmt.Sprintf` on the format
`{"index":%d,"timestamp":%d,"transactions":%v,"previous_hash":"%s","nonce":%d}`. -/
def serialize (index timestamp : Int) (transactions : List String) (previousHash : String)
    (n : Int) : String :=
  "\x7b\"index\":" ++ fmtInt index ++ ",\"timestamp\":" ++ fmtInt timestamp
    ++ ",\"transactions\":" ++ fmtStrings transactions
    ++ ",\"previous_hash\":\"" ++ previousHash ++ "\",\"nonce\":" ++ fmtInt n ++ "\x7d"

/-- The string `blockString` built in each iteration of `calculateHash`. -/
def Block.blockString (b : Block) : String :=
  serialize b.index b.timestamp b.transactions b.previousHash b.nonce

/-- Go: `func (b *Block) calculateHash()`, run for at most `fuel` iterations of
its loop. `none`: the loop has not ended within `fuel` iterations, or the slice
`blockHash[:4]` panicked. -/
def Block.calculateHash (digest : String → String) : Nat → Block → Option Block
  | 0, _ => none
  | fuel + 1, b =>
    let blockHash := digest b.blockString
    match leadsWith0000 blockHash with
    | none => none
    | some true => some { b with hash := blockHash }
    | some false => Block.calculateHash digest fuel { b with nonce := wrapInt64 (b.nonce + 1) }

/-- Go: `func (b *Block) calculateMerkleRoot()`. -/
def Block.calculateMerkleRoot (digest : String → String) (b : Block) : Option Block :=
  (NewMerkleTree digest b.transactions).map (fun mt => { b with merkleRoot := mt.root })

/-- Go: `func NewBlock(index int, timestamp int64, transactions []string,
previousHash string) *Block`. -/
def NewBlock (digest : String → String) (fuel : Nat) (index timestamp : Int)
    (transactions : List String) (previousHash : String) : Option Block :=
  (Block.calculateHash digest fuel
    { index := index, timestamp := timestamp, transactions := transactions,
      previousHash := previousHash, hash := "", merkleRoot := "", nonce := 0 }).bind
    (Block.calculateMerkleRoot digest)

/-! ## The chain -/

/-- Go: `type Blockchain struct { chain []*Block; currentTransactions []string }`. -/
structure Blockchain where
  chain : List Block
  currentTransactions : List String
deriving DecidableEq

/-- Go: `func NewGenesisBlock() *Block`; `now` is the value of `time.Now().Unix()`. -/
def NewGenesisBlock (digest : String → String) (fuel : Nat) (now : Int) : Option Block :=
  NewBlock digest fuel 0 now [] "0"

/-- Go: `func NewBlockchain() *Blockchain`. -/
def NewBlockchain (digest : String → String) (fuel : Nat) (now : Int) : Option Blockchain :=
  (NewGenesisBlock digest fuel now).map
    (fun g => { chain := [g], currentTransactions := [] })

/-- Go: `func (bc *Blockchain) GetLatestBlock() *Block`: `bc.chain[len(bc.chain)-1]`,
a panic (`none`) on an empty chain. -/
def Blockchain.GetLatestBlock (bc : Blockchain) : Option Block :=
  bc.chain.getLast?

/-- Go: `func (bc *Blockchain) AddTransaction(transaction string)`. -/
def Blockchain.AddTransaction (bc : Blockchain) (transaction : String) : Blockchain :=
  { bc with currentTransactions := bc.currentTransactions ++ [transaction] }

/-- Go: `func (bc *Blockchain) AddBlock(newBlock *Block)`. Precondition:
`newBlock` does not point to a block already in the chain (the call in
`CreateNewBlock` passes a fresh block); the elements already in the chain are
then left as they are. -/
def Blockchain.AddBlock (digest : String → String) (fuel : Nat) (bc : Blockchain)
    (newBlock : Block) : Option Blockchain :=
  bc.GetLatestBlock.bind fun latest =>
    (Block.calculateHash digest fuel { newBlock with previousHash := latest.hash }).map
      fun mined => { bc with chain := bc.chain ++ [mined] }

/-- Go: `func (bc *Blockchain) CreateNewBlock()`; `now` is the value of
`time.Now().Unix()`. -/
def Blockchain.CreateNewBlock (digest : String → String) (fuel : Nat) (now : Int)
    (bc : Blockchain) : Option Blockchain :=
  bc.GetLatestBlock.bind fun latest =>
    (NewBlock digest fuel bc.chain.length now bc.currentTransactions latest.hash).bind
      fun newBlock =>
        Blockchain.AddBlock digest fuel { bc with currentTransactions := [] } newBlock

/-- The body of the loop of `IsChainValid` over the adjacent pairs
`(chain[i-1], chain[i])`, `i = 1, 2, ...`, on the part of the chain from
`chain[i-1]` on. -/
def Blockchain.validFrom : List Block → Bool
  | previousBlock :: currentBlock :: rest =>
    if currentBlock.hash != "" && currentBlock.hash != currentBlock.hash then false
    else if currentBlock.previousHash != previousBlock.hash then false
    else Blockchain.validFrom (currentBlock :: rest)
  | _ => true

/-- Go: `func (bc *Blockchain) IsChainValid() bool`. -/
def Blockchain.IsChainValid (bc : Blockchain) : Bool :=
  Blockchain.validFrom bc.chain

/-! ## Reachable states -/

/-- The two operations the driver (`main`) performs on the chain. -/
inductive Op where
  | addTransaction (transaction : String)
  | createNewBlock (now : Int)

/-- One operation on the chain. -/
def Blockchain.step (digest : String → String) (fuel : Nat) (bc : Blockchain) :
    Op → Option Blockchain
  | Op.addTransaction transaction => some (bc.AddTransaction transaction)
  | Op.createNewBlock now => bc.CreateNewBlock digest fuel now

/-- A sequence of operations, from left to right. -/
def Blockchain.run (digest : String → String) (fuel : Nat) :
    Blockchain → List Op → Option Blockchain
  | bc, [] => some bc
  | bc, op :: ops => (bc.step digest fuel op).bind fun next => Blockchain.run digest fuel next ops

/-- Whether an operation of the driver is a call of `CreateNewBlock`. -/
def Op.isCreateNewBlock : Op → Bool
  | Op.addTransaction _ => false
  | Op.createNewBlock _ => true

/-- The nonce after `j` executions of `b.nonce++`, starting from `m`. -/
def nonceAt (m : Int) (j : Nat) : Int := (fun n => wrapInt64 (n + 1))^[j] m

/-! ## Concrete runs of the program

Blocks as the program (digest `sha256Hex`) produces them, for clock readings at
which the proof-of-work search ends after a few iterations. -/

/-- The genesis block made at clock reading 1700136559. -/
def exGenesis : Block :=
  { index := 0, timestamp := 1700136559, transactions := [], previousHash := "0",
    hash := "0000e8afb1b07f381aa19107e02a823b46264e30af264e9f9df069808e31f4c5",
    merkleRoot := "", nonce := 2 }

/-- The block sealed on top of `exGenesis` at clock reading 1700182286 from the
records `A`, `B`, `C`. -/
def exBlock1 : Block :=
  { index := 1, timestamp := 1700182286, transactions := ["A", "B", "C"],
    previousHash := "0000e8afb1b07f381aa19107e02a823b46264e30af264e9f9df069808e31f4c5",
    hash := "0000576c8f9aa338ba7ac8daeac7ec5609138902b43787f80d2d9f65fdd801f5",
    merkleRoot := "759051182630ccfb413782a23a83b6a5dd1cdd80b8ceacd4ed157e5eff4f2659",
    nonce := 1 }

/-- The block sealed on top of `exBlock1` at clock reading 1700198401 from the
record `D`. -/
def exBlock2 : Block :=
  { index := 2, timestamp := 1700198401, transactions := ["D"],
    previousHash := "0000576c8f9aa338ba7ac8daeac7ec5609138902b43787f80d2d9f65fdd801f5",
    hash := "00009410d4ecdd07f135a419ca495916f3c4eb39fe171480d79e1836a15edd87",
    merkleRoot := "3f39d5c348e5b79d06e842c114e6cc571583bbf44e4b0ebfda1a01ec05745d43",
    nonce := 0 }

/-- The driver run: records `A`, `B`, `C`, seal, record `D`, seal. -/
def exOps : List Op :=
  [Op.addTransaction "A", Op.addTransaction "B", Op.addTransaction "C",
   Op.createNewBlock 1700182286, Op.addTransaction "D", Op.createNewBlock 1700198401]

/-- A block handed to `AddBlock` with a nonce already set and a previous hash
that is not the hash of the tip. -/
def exStale : Block :=
  { index := 1, timestamp := 1700182286, transactions := ["A", "B", "C"],
    previousHash := "stale", hash := "", merkleRoot := "", nonce := 101654 }

/-- The block `AddBlock` appends to the chain `[exGenesis]` when handed `exStale`. -/
def exStaleMined : Block :=
  { index := 1, timestamp := 1700182286, transactions := ["A", "B", "C"],
    previousHash := "0000e8afb1b07f381aa19107e02a823b46264e30af264e9f9df069808e31f4c5",
    hash := "000011f8ee4eb9bae0e5250225a879d110eceedfecbd091295d4801418d4d449",
    merkleRoot := "", nonce := 101654 }

/-- The block `NewBlock` builds on top of `exGenesis` at clock reading 1700312427
from the single record `a b`. -/
def exSpaced : Block :=
  { index := 1, timestamp := 1700312427, transactions := ["a b"],
    previousHash := "0000e8afb1b07f381aa19107e02a823b46264e30af264e9f9df069808e31f4c5",
    hash := "000089b87565af711dd79061ca80634590049d55b7a34ead15b33b740eef4c4a",
    merkleRoot := "c8687a08aa5d6ed2044328fa6a697ab8e96dc34291e8c2034ae8c38e6fcc6d65",
    nonce := 1 }

/-- The block `NewBlock` builds from the same inputs as `exSpaced`, except that the
records are `a` and `b`. -/
def exSplit : Block :=
  { index := 1, timestamp := 1700312427, transactions := ["a", "b"],
    previousHash := "0000e8afb1b07f381aa19107e02a823b46264e30af264e9f9df069808e31f4c5",
    hash := "000089b87565af711dd79061ca80634590049d55b7a34ead15b33b740eef4c4a",
    merkleRoot := "62af5c3cb8da3e4f25061e829ebeea5c7513c54949115b1acc225930a90154da",
    nonce := 1 }

/-! ## The strings the Merkle construction hashes -/

/-- The arguments of the calls `mt.hashTransaction(hashedTransactions[i] +
hashedTransactions[i+1])` in one round of the loop of `buildMerkleTree`: the
concatenations of the adjacent pairs of the layer. -/
def MerkleTree.layerInputs : List String → List String
  | x :: y :: rest => (x ++ y) :: MerkleTree.layerInputs rest
  | _ => []

/-- The arguments of all the calls of `hashTransaction` that the loop of
`buildMerkleTree` makes from a layer on, in at most `rounds` rounds. -/
def MerkleTree.loopInputs (digest : String → String) : Nat → List String → List String
  | 0, _ => []
  | rounds + 1, layer =>
    if 1 < layer.length then
      MerkleTree.layerInputs layer
        ++ MerkleTree.loopInputs digest rounds (MerkleTree.reduceLayer digest layer)
    else []

/-- The arguments of all the calls of `hashTransaction` that `buildMerkleTree`
makes on a record list: the records themselves (leaf layer), then the
concatenations hashed round after round. -/
def MerkleTree.hashedInputs (digest : String → String) (transactions : List String) :
    List String :=
  transactions ++ MerkleTree.loopInputs digest transactions.length
    (transactions.map (MerkleTree.hashTransaction digest))

/-! ## Idealised and weak digests -/

/-- A digest of one character, for which collisions are at hand: the first
hexadecimal digit of the SHA-256 digest. -/
def firstHexDigit (s : String) : String := ⟨(sha256Hex s).data.take 1⟩

theorem nonceAt_zero (m : Int) : nonceAt m 0 = m := rfl

theorem nonceAt_succ (m : Int) (j : Nat) :
    nonceAt m (j + 1) = nonceAt (wrapInt64 (m + 1)) j := rfl

theorem Block.calculateHash_eq_some_iff (digest : String → String) (fuel : Nat) (b b' : Block) :
    Block.calculateHash digest fuel b = some b' ↔
      ∃ j, j < fuel ∧
        (∀ i, i < j → leadsWith0000 (digest (serialize b.index b.timestamp b.transactions
          b.previousHash (nonceAt b.nonce i))) = some false) ∧
        leadsWith0000 (digest (serialize b.index b.timestamp b.transactions
          b.previousHash (nonceAt b.nonce j))) = some true ∧
        b' = { b with
          nonce := nonceAt b.nonce j
          hash := digest (serialize b.index b.timestamp b.transactions b.previousHash
            (nonceAt b.nonce j)) } := by
  induction fuel generalizing b with
  | zero => simp [Block.calculateHash]
  | succ fuel ih =>
    rw [Block.calculateHash]
    simp only [Block.blockString]
    cases hc : leadsWith0000 (digest (serialize b.index b.timestamp b.transactions
        b.previousHash b.nonce)) with
    | none =>
      simp only [false_iff, not_exists, reduceCtorEq]
      rintro j ⟨-, hmiss, hhit, -⟩
      cases j with
      | zero => rw [nonceAt_zero, hc] at hhit; cases hhit
      | succ j => have := hmiss 0 (Nat.succ_pos j); rw [nonceAt_zero, hc] at this; cases this
    | some v =>
      cases v with
      | true =>
        simp only [Option.some.injEq]
        constructor
        · rintro rfl
          exact ⟨0, Nat.succ_pos fuel, fun i hi => absurd hi (Nat.not_lt_zero i),
            by rw [nonceAt_zero]; exact hc, by rw [nonceAt_zero]⟩
        · rintro ⟨j, -, hmiss, -, rfl⟩
          cases j with
          | zero => rw [nonceAt_zero]
          | succ j => have := hmiss 0 (Nat.succ_pos j); rw [nonceAt_zero, hc] at this; cases this
      | false =>
        simp only [ih]
        constructor
        · rintro ⟨j, hj, hmiss, hhit, rfl⟩
          refine ⟨j + 1, Nat.succ_lt_succ hj, ?_, hhit, rfl⟩
          intro i hi
          cases i with
          | zero => rw [nonceAt_zero]; exact hc
          | succ i => exact hmiss i (Nat.lt_of_succ_lt_succ hi)
        · rintro ⟨j, hj, hmiss, hhit, rfl⟩
          cases j with
          | zero => rw [nonceAt_zero, hc] at hhit; cases hhit
          | succ j =>
            exact ⟨j, Nat.lt_of_succ_lt_succ hj, fun i hi => hmiss (i + 1) (Nat.succ_lt_succ hi),
              hhit, rfl⟩

theorem wrapInt64_of_range (x : Int) (h1 : -9223372036854775808 ≤ x)
    (h2 : x < 9223372036854775808) : wrapInt64 x = x := by
  unfold wrapInt64
  omega

theorem nonceAt_of_no_overflow (m : Int) (j : Nat) (h1 : -9223372036854775808 ≤ m)
    (h2 : m + j < 9223372036854775808) : nonceAt m j = m + j := by
  induction j generalizing m with
  | zero => simp [nonceAt_zero]
  | succ j ih =>
    have hw : wrapInt64 (m + 1) = m + 1 :=
      wrapInt64_of_range _ (by omega) (by push_cast at h2; omega)
    have e := ih (m + 1) (by omega) (by push_cast at h2; omega)
    rw [nonceAt_succ, hw]
    omega

theorem utf8Char_head (c : Char) :
    ∃ b rest, utf8Char c = b :: rest ∧ (b = 48 → c = '0' ∧ rest = []) := by
  unfold utf8Char
  simp only
  split_ifs with h1 h2 h3
  · exact ⟨c.toNat, [], rfl, fun h =>
      ⟨(Char.ofNat_toNat c).symm.trans (congrArg Char.ofNat h), rfl⟩⟩
  · exact ⟨_, _, rfl, fun h => by omega⟩
  · exact ⟨_, _, rfl, fun h => by omega⟩
  · exact ⟨_, _, rfl, fun h => by omega⟩

theorem take_flatMap_utf8Char_zeros (n : Nat) (l : List Char)
    (h : (l.flatMap utf8Char).take n = List.replicate n 48) :
    l.take n = List.replicate n '0' := by
  induction n generalizing l with
  | zero => simp
  | succ n ih =>
    cases l with
    | nil => simp [List.replicate_succ] at h
    | cons c l =>
      obtain ⟨b, rest, hb, hz⟩ := utf8Char_head c
      rw [List.flatMap_cons, hb, List.cons_append, List.take_succ_cons, List.replicate_succ,
        List.cons.injEq] at h
      obtain ⟨hc, hrest⟩ := hz h.1
      subst hrest
      rw [List.take_succ_cons, List.replicate_succ, hc, ih l (by simpa using h.2)]

theorem leadsWith0000_chars (s : String) (h : leadsWith0000 s = some true) :
    s.data.take 4 = ['0', '0', '0', '0'] := by
  unfold leadsWith0000 sliceTo4 at h
  split_ifs at h with hlen
  · cases h
  · simp only [Option.map_some', Option.some.injEq, decide_eq_true_eq] at h
    exact take_flatMap_utf8Char_zeros 4 s.data h

theorem leadsWith0000_ne_empty (s : String) (h : leadsWith0000 s = some true) : s ≠ "" := by
  intro hs
  have := leadsWith0000_chars s h
  rw [hs] at this
  cases this

theorem Block.calculateHash_hit (digest : String → String) (fuel : Nat) (b : Block)
    (h : leadsWith0000 (digest b.blockString) = some true) :
    Block.calculateHash digest (fuel + 1) b = some { b with hash := digest b.blockString } := by
  rw [Block.calculateHash]
  simp only [h]

/-! ## Lemmas on the Merkle tree -/

theorem MerkleTree.reduceLayer_length (digest : String → String) :
    ∀ l : List String, (MerkleTree.reduceLayer digest l).length = (l.length + 1) / 2
  | [] => rfl
  | [_] => by simp [MerkleTree.reduceLayer]
  | x :: y :: rest => by
    simp only [MerkleTree.reduceLayer, List.length_cons,
      MerkleTree.reduceLayer_length digest rest]
    omega

theorem MerkleTree.reduceLayer_pair (digest : String → String) :
    ∀ (l : List String) (j : Nat) (x y : String),
      l[2 * j]? = some x → l[2 * j + 1]? = some y →
      (MerkleTree.reduceLayer digest l)[j]? = some (digest (x ++ y))
  | [], j, x, y, hx, _ => by simp at hx
  | [_], j, x, y, _, hy => by simp at hy
  | a :: b :: rest, 0, x, y, hx, hy => by
    simp only [Nat.mul_zero, List.getElem?_cons_zero, Option.some.injEq] at hx
    simp only [Nat.mul_zero, Nat.zero_add, List.getElem?_cons_succ, List.getElem?_cons_zero,
      Option.some.injEq] at hy
    simp [MerkleTree.reduceLayer, MerkleTree.hashTransaction, hx, hy]
  | a :: b :: rest, j + 1, x, y, hx, hy => by
    have e1 : 2 * (j + 1) = 2 * j + 1 + 1 := by ring
    have e2 : 2 * (j + 1) + 1 = 2 * j + 1 + 1 + 1 := by ring
    rw [e1, List.getElem?_cons_succ, List.getElem?_cons_succ] at hx
    rw [e2, List.getElem?_cons_succ, List.getElem?_cons_succ] at hy
    simp only [MerkleTree.reduceLayer, List.getElem?_cons_succ]
    exact MerkleTree.reduceLayer_pair digest rest j x y hx hy

theorem MerkleTree.reduceLayer_odd (digest : String → String) :
    ∀ l : List String, l.length % 2 = 1 →
      (MerkleTree.reduceLayer digest l)[l.length / 2]? = l[l.length - 1]?
  | [], h => by simp at h
  | [_], _ => by simp [MerkleTree.reduceLayer]
  | a :: b :: rest, h => by
    have hr : rest.length % 2 = 1 := by simp only [List.length_cons] at h; omega
    have hpos : 0 < rest.length := by omega
    have e1 : (a :: b :: rest).length / 2 = rest.length / 2 + 1 := by
      simp only [List.length_cons]; omega
    have e2 : (a :: b :: rest).length - 1 = (rest.length - 1) + 1 + 1 := by
      simp only [List.length_cons]; omega
    rw [e1, e2]
    simp only [MerkleTree.reduceLayer, List.getElem?_cons_succ]
    exact MerkleTree.reduceLayer_odd digest rest hr

theorem MerkleTree.reduceLayer_ne_nil (digest : String → String) (l : List String)
    (h : l ≠ []) : MerkleTree.reduceLayer digest l ≠ [] := by
  intro hnil
  have hlen := MerkleTree.reduceLayer_length digest l
  rw [hnil] at hlen
  have : 0 < l.length := List.length_pos.mpr h
  simp only [List.length_nil] at hlen
  omega

theorem MerkleTree.reduceLoop_ne_nil (digest : String → String) :
    ∀ (rounds : Nat) (l : List String), l ≠ [] → MerkleTree.reduceLoop digest rounds l ≠ []
  | 0, l, h => h
  | rounds + 1, l, h => by
    rw [MerkleTree.reduceLoop]
    split_ifs
    · exact MerkleTree.reduceLoop_ne_nil digest rounds _ (MerkleTree.reduceLayer_ne_nil digest l h)
    · exact h

theorem MerkleTree.reduceLoop_length_le_one (digest : String → String) :
    ∀ (rounds : Nat) (l : List String), l.length ≤ rounds →
      (MerkleTree.reduceLoop digest rounds l).length ≤ 1
  | 0, l, h => by rw [MerkleTree.reduceLoop]; omega
  | rounds + 1, l, h => by
    rw [MerkleTree.reduceLoop]
    split_ifs with h1
    · apply MerkleTree.reduceLoop_length_le_one digest rounds
      rw [MerkleTree.reduceLayer_length]
      omega
    · omega

theorem NewMerkleTree_nil (digest : String → String) :
    NewMerkleTree digest [] = some { transactions := [], root := "" } := rfl

theorem NewMerkleTree_total (digest : String → String) (transactions : List String) :
    ∃ r, NewMerkleTree digest transactions
      = some { transactions := transactions, root := r } := by
  unfold NewMerkleTree MerkleTree.buildMerkleTree
  simp only
  split_ifs with h
  · exact ⟨"", rfl⟩
  · have hne : transactions.map (MerkleTree.hashTransaction digest) ≠ [] := by
      intro hnil
      exact h (by simpa using congrArg List.length hnil)
    have := MerkleTree.reduceLoop_ne_nil digest
      (transactions.map (MerkleTree.hashTransaction digest)).length _ hne
    split
    · next heq => exact absurd heq this
    · next r _ _ => exact ⟨r, rfl⟩

/-! ## Lemmas on chain validation -/

theorem Blockchain.validFrom_iff_chain' :
    ∀ l : List Block, Blockchain.validFrom l = true ↔
      List.Chain' (fun p c : Block => c.previousHash = p.hash) l
  | [] => by simp [Blockchain.validFrom]
  | [_] => by simp [Blockchain.validFrom]
  | p :: c :: rest => by
    rw [Blockchain.validFrom, List.chain'_cons, ← Blockchain.validFrom_iff_chain' (c :: rest)]
    by_cases h : c.previousHash = p.hash <;> simp [h]

/-! ## The digest of the program

The hexadecimal SHA-256 digest has 64 bytes, so with `sha256Hex` the slice
`blockHash[:4]` in `calculateHash` never panics: `calculateHash sha256Hex`
returns `none` only when the search has not ended within the given number of
iterations. -/

theorem Sha256.utf8Char_hexDigit (n : Nat) :
    utf8Char (Sha256.hexDigit (n % 16)) = [(Sha256.hexDigit (n % 16)).toNat] := by
  have h : n % 16 < 16 := Nat.mod_lt n (by decide)
  generalize n % 16 = m at h
  interval_cases m <;> rfl

theorem Sha256.goBytes_hexWord (w : Nat) :
    ((Sha256.hexWord w).flatMap utf8Char).length = 8 := by
  have e : Sha256.hexWord w
      = [Sha256.hexDigit ((w >>> 28) % 16), Sha256.hexDigit ((w >>> 24) % 16),
         Sha256.hexDigit ((w >>> 20) % 16), Sha256.hexDigit ((w >>> 16) % 16),
         Sha256.hexDigit ((w >>> 12) % 16), Sha256.hexDigit ((w >>> 8) % 16),
         Sha256.hexDigit ((w >>> 4) % 16), Sha256.hexDigit ((w >>> 0) % 16)] := rfl
  rw [e]
  simp only [List.flatMap_cons, List.flatMap_nil, Sha256.utf8Char_hexDigit]
  rfl

theorem sha256Hex_bytes_length (s : String) : (goBytes (sha256Hex s)).length = 64 := by
  unfold sha256Hex goBytes Sha256.hex
  simp only [List.flatMap_append, List.length_append, Sha256.goBytes_hexWord]

theorem sha256Hex_slice_in_range (s : String) :
    ∃ v, leadsWith0000 (sha256Hex s) = some v := by
  unfold leadsWith0000 sliceTo4
  rw [if_neg (by rw [sha256Hex_bytes_length]; decide)]
  exact ⟨_, rfl⟩

/-! ## Facts on the concrete runs -/

set_option maxRecDepth 100000 in
theorem exGenesis_pow :
    Block.calculateHash sha256Hex 1000000
      { index := 0, timestamp := 1700136559, transactions := [], previousHash := "0",
        hash := "", merkleRoot := "", nonce := 0 } = some exGenesis := by
  decide

set_option maxRecDepth 100000 in
theorem exOps_run :
    (NewBlockchain sha256Hex 1000000 1700136559).bind
        (fun g => Blockchain.run sha256Hex 1000000 g exOps)
      = some { chain := [exGenesis, exBlock1, exBlock2], currentTransactions := [] } := by
  decide

set_option maxRecDepth 100000 in
theorem exStale_added :
    Blockchain.AddBlock sha256Hex 1000000
        { chain := [exGenesis], currentTransactions := [] } exStale
      = some { chain := [exGenesis, exStaleMined], currentTransactions := [] } := by
  decide

/-! ## Proof-of-work: what a finished search has stored -/

theorem leadsWith0000_take (s : String) (h : leadsWith0000 s = some true) :
    s.take 4 = "0000" := by
  rw [String.take_eq, leadsWith0000_chars s h]

theorem Block.calculateHash_sound (digest : String → String) (fuel : Nat) (b b' : Block)
    (h : Block.calculateHash digest fuel b = some b') :
    b'.index = b.index ∧ b'.timestamp = b.timestamp ∧ b'.transactions = b.transactions ∧
      b'.previousHash = b.previousHash ∧ b'.merkleRoot = b.merkleRoot ∧
      b'.hash = digest b'.blockString ∧ leadsWith0000 b'.hash = some true := by
  obtain ⟨j, -, -, hhit, rfl⟩ := (Block.calculateHash_eq_some_iff digest fuel b b').mp h
  exact ⟨rfl, rfl, rfl, rfl, rfl, rfl, hhit⟩

theorem NewBlock_eq_some_iff (digest : String → String) (fuel : Nat) (index timestamp : Int)
    (transactions : List String) (previousHash : String) (b : Block) :
    NewBlock digest fuel index timestamp transactions previousHash = some b ↔
      ∃ mined r,
        Block.calculateHash digest fuel
          { index := index, timestamp := timestamp, transactions := transactions,
            previousHash := previousHash, hash := "", merkleRoot := "", nonce := 0 }
          = some mined ∧
        NewMerkleTree digest transactions = some { transactions := transactions, root := r } ∧
        b = { mined with merkleRoot := r } := by
  unfold NewBlock
  constructor
  · intro h
    obtain ⟨mined, hm, hr⟩ := Option.bind_eq_some.mp h
    have hs := Block.calculateHash_sound digest fuel _ mined hm
    obtain ⟨r, hroot⟩ := NewMerkleTree_total digest transactions
    have hroot' : NewMerkleTree digest mined.transactions
        = some { transactions := transactions, root := r } := by
      rw [hs.2.2.1]
      exact hroot
    refine ⟨mined, r, hm, hroot, ?_⟩
    unfold Block.calculateMerkleRoot at hr
    rw [hroot'] at hr
    simp only [Option.map_some', Option.some.injEq] at hr
    exact hr.symm
  · rintro ⟨mined, r, hm, hroot, rfl⟩
    have hs := Block.calculateHash_sound digest fuel _ mined hm
    have hroot' : NewMerkleTree digest mined.transactions
        = some { transactions := transactions, root := r } := by
      rw [hs.2.2.1]
      exact hroot
    rw [hm, Option.some_bind]
    unfold Block.calculateMerkleRoot
    rw [hroot']
    rfl

theorem Blockchain.AddBlock_eq_some_iff (digest : String → String) (fuel : Nat)
    (bc bc' : Blockchain) (newBlock : Block) :
    bc.AddBlock digest fuel newBlock = some bc' ↔
      ∃ latest mined, bc.chain.getLast? = some latest ∧
        Block.calculateHash digest fuel { newBlock with previousHash := latest.hash }
          = some mined ∧
        bc' = { bc with chain := bc.chain ++ [mined] } := by
  unfold Blockchain.AddBlock Blockchain.GetLatestBlock
  constructor
  · intro h
    obtain ⟨latest, hl, h2⟩ := Option.bind_eq_some.mp h
    obtain ⟨mined, hm, rfl⟩ := Option.map_eq_some'.mp h2
    exact ⟨latest, mined, hl, hm, rfl⟩
  · rintro ⟨latest, mined, hl, hm, rfl⟩
    rw [hl, Option.some_bind, hm]
    rfl

/-- C1: whenever `calculateHash` ends, the stored hash is the digest of the
serialization of the block's index, timestamp, records, previous hash and stored
nonce, and its first four characters are `0000`. The same holds for the block
returned by `NewBlock` and for the block that `AddBlock` appends. -/
theorem C1_stored_hash_is_digest_with_zeros (digest : String → String) :
    (∀ (fuel : Nat) (b b' : Block), Block.calculateHash digest fuel b = some b' →
      b'.hash = digest
          (serialize b'.index b'.timestamp b'.transactions b'.previousHash b'.nonce) ∧
        b'.hash.take 4 = "0000") ∧
    (∀ (fuel : Nat) (index timestamp : Int) (transactions : List String)
        (previousHash : String) (b : Block),
      NewBlock digest fuel index timestamp transactions previousHash = some b →
      b.hash = digest (serialize index timestamp transactions previousHash b.nonce) ∧
        b.hash.take 4 = "0000") ∧
    (∀ (fuel : Nat) (bc bc' : Blockchain) (newBlock : Block),
      bc.AddBlock digest fuel newBlock = some bc' →
      ∃ blk, bc'.chain = bc.chain ++ [blk] ∧
        blk.hash = digest
          (serialize blk.index blk.timestamp blk.transactions blk.previousHash blk.nonce) ∧
        blk.hash.take 4 = "0000") := by
  refine ⟨?_, ?_, ?_⟩
  · intro fuel b b' h
    have hs := Block.calculateHash_sound digest fuel b b' h
    exact ⟨hs.2.2.2.2.2.1, leadsWith0000_take _ hs.2.2.2.2.2.2⟩
  · intro fuel index timestamp transactions previousHash b h
    obtain ⟨mined, r, hm, -, rfl⟩ :=
      (NewBlock_eq_some_iff digest fuel index timestamp transactions previousHash b).mp h
    have hs := Block.calculateHash_sound digest fuel _ mined hm
    refine ⟨?_, leadsWith0000_take _ hs.2.2.2.2.2.2⟩
    have := hs.2.2.2.2.2.1
    rw [Block.blockString, hs.1, hs.2.1, hs.2.2.1, hs.2.2.2.1] at this
    exact this
  · intro fuel bc bc' newBlock h
    obtain ⟨latest, mined, -, hm, rfl⟩ :=
      (Blockchain.AddBlock_eq_some_iff digest fuel bc bc' newBlock).mp h
    have hs := Block.calculateHash_sound digest fuel _ mined hm
    exact ⟨mined, rfl, hs.2.2.2.2.2.1, leadsWith0000_take _ hs.2.2.2.2.2.2⟩

/-- C1 at the program's digest: the genesis search from nonce 0 ends at nonce 2,
`NewBlock` returns that block, and `AddBlock` appends a block of the same kind. -/
theorem C1_stored_hash_is_digest_with_zeros_witness :
    (Block.calculateHash sha256Hex 1000000
        { index := 0, timestamp := 1700136559, transactions := [], previousHash := "0",
          hash := "", merkleRoot := "", nonce := 0 } = some exGenesis ∧
      exGenesis.hash = sha256Hex (serialize 0 1700136559 [] "0" 2) ∧
      exGenesis.hash.take 4 = "0000") ∧
    (∃ blk, [exGenesis, exStaleMined] = [exGenesis] ++ [blk] ∧
      blk.hash = sha256Hex
        (serialize blk.index blk.timestamp blk.transactions blk.previousHash blk.nonce) ∧
      blk.hash.take 4 = "0000") :=
  ⟨⟨exGenesis_pow,
      (C1_stored_hash_is_digest_with_zeros sha256Hex).1 1000000 _ _ exGenesis_pow⟩,
    (C1_stored_hash_is_digest_with_zeros sha256Hex).2.2 1000000 _ _ _ exStale_added⟩

/-! ## Chain validation -/

theorem Blockchain.IsChainValid_iff_get (bc : Blockchain) :
    bc.IsChainValid = true ↔
      ∀ (i : Nat) (_ : 1 ≤ i) (h2 : i < bc.chain.length),
        (bc.chain.get ⟨i, h2⟩).previousHash = (bc.chain.get ⟨i - 1, by omega⟩).hash := by
  unfold Blockchain.IsChainValid
  rw [Blockchain.validFrom_iff_chain', List.chain'_iff_get]
  constructor
  · intro h i h1 h2
    obtain ⟨k, rfl⟩ : ∃ k, i = k + 1 := ⟨i - 1, by omega⟩
    exact h k (by omega)
  · intro h i hi
    exact h (i + 1) (by omega) (by omega)

/-- C2: `IsChainValid` returns true exactly when every block from the second on
stores the hash of its predecessor as its previous hash; it returns true on a
chain of length 0 or 1; and the comparison of a block's hash with itself in the
loop is never true, so it never causes a false result. -/
theorem C2_IsChainValid_iff_linked (bc : Blockchain) :
    (bc.IsChainValid = true ↔
      ∀ (i : Nat) (_ : 1 ≤ i) (h2 : i < bc.chain.length),
        (bc.chain.get ⟨i, h2⟩).previousHash = (bc.chain.get ⟨i - 1, by omega⟩).hash) ∧
    (bc.chain.length ≤ 1 → bc.IsChainValid = true) ∧
    (∀ currentBlock : Block,
      (currentBlock.hash != "" && currentBlock.hash != currentBlock.hash) = false) := by
  refine ⟨Blockchain.IsChainValid_iff_get bc, ?_, ?_⟩
  · intro hlen
    unfold Blockchain.IsChainValid
    match hc : bc.chain, hlen with
    | [], _ => rfl
    | [_], _ => rfl
    | _ :: _ :: _, hlen => simp at hlen
  · intro currentBlock
    simp

theorem Block.calculateHash_idem (digest : String → String) (fuel : Nat) (b b' : Block)
    (h : Block.calculateHash digest fuel b = some b') :
    Block.calculateHash digest fuel b' = some b' := by
  have hs := Block.calculateHash_sound digest fuel b b' h
  cases fuel with
  | zero => simp [Block.calculateHash] at h
  | succ fuel =>
    have hhit : leadsWith0000 (digest b'.blockString) = some true := by
      rw [← hs.2.2.2.2.2.1]
      exact hs.2.2.2.2.2.2
    rw [Block.calculateHash_hit digest fuel b' hhit, ← hs.2.2.2.2.2.1]

theorem Blockchain.CreateNewBlock_eq_some_iff (digest : String → String) (fuel : Nat)
    (now : Int) (bc bc' : Blockchain) :
    bc.CreateNewBlock digest fuel now = some bc' ↔
      ∃ latest newBlock, bc.chain.getLast? = some latest ∧
        NewBlock digest fuel bc.chain.length now bc.currentTransactions latest.hash
          = some newBlock ∧
        bc' = { chain := bc.chain ++ [newBlock], currentTransactions := [] } := by
  have key : ∀ latest newBlock, bc.chain.getLast? = some latest →
      NewBlock digest fuel bc.chain.length now bc.currentTransactions latest.hash
          = some newBlock →
      Blockchain.AddBlock digest fuel { bc with currentTransactions := [] } newBlock
        = some { chain := bc.chain ++ [newBlock], currentTransactions := [] } := by
    intro latest newBlock hl hn
    obtain ⟨mined, r, hm, -, rfl⟩ := (NewBlock_eq_some_iff digest fuel _ _ _ _ _).mp hn
    have hs := Block.calculateHash_sound digest fuel _ mined hm
    have hidem := Block.calculateHash_idem digest fuel _ mined hm
    have hs' := Block.calculateHash_sound digest fuel _ _ hidem
    rw [Blockchain.AddBlock_eq_some_iff]
    refine ⟨latest, { mined with merkleRoot := r }, hl, ?_, rfl⟩
    have hprev : ({ mined with merkleRoot := r } : Block).previousHash = latest.hash := hs.2.2.2.1
    have hsame : ({ ({ mined with merkleRoot := r } : Block) with previousHash := latest.hash }
        : Block) = { mined with merkleRoot := r } := by
      rw [← hprev]
    rw [hsame]
    cases fuel with
    | zero => simp [Block.calculateHash] at hm
    | succ fuel =>
      have hhit : leadsWith0000 (digest ({ mined with merkleRoot := r } : Block).blockString)
          = some true := by
        have : ({ mined with merkleRoot := r } : Block).blockString = mined.blockString := rfl
        rw [this, ← hs.2.2.2.2.2.1]
        exact hs.2.2.2.2.2.2
      rw [Block.calculateHash_hit digest fuel _ hhit]
      have : ({ mined with merkleRoot := r } : Block).blockString = mined.blockString := rfl
      rw [this, ← hs.2.2.2.2.2.1]
  unfold Blockchain.CreateNewBlock Blockchain.GetLatestBlock
  constructor
  · intro h
    obtain ⟨latest, hl, h2⟩ := Option.bind_eq_some.mp h
    obtain ⟨newBlock, hn, h3⟩ := Option.bind_eq_some.mp h2
    rw [key latest newBlock hl hn] at h3
    exact ⟨latest, newBlock, hl, hn, (Option.some.inj h3).symm⟩
  · rintro ⟨latest, newBlock, hl, hn, rfl⟩
    rw [hl, Option.some_bind, hn, Option.some_bind]
    exact key latest newBlock hl hn

theorem NewBlock_previousHash (digest : String → String) (fuel : Nat) (index timestamp : Int)
    (transactions : List String) (previousHash : String) (b : Block)
    (h : NewBlock digest fuel index timestamp transactions previousHash = some b) :
    b.index = index ∧ b.timestamp = timestamp ∧ b.transactions = transactions ∧
      b.previousHash = previousHash := by
  obtain ⟨mined, r, hm, -, rfl⟩ := (NewBlock_eq_some_iff digest fuel _ _ _ _ _).mp h
  have hs := Block.calculateHash_sound digest fuel _ mined hm
  exact ⟨hs.1, hs.2.1, hs.2.2.1, hs.2.2.2.1⟩

theorem Blockchain.CreateNewBlock_valid (digest : String → String) (fuel : Nat) (now : Int)
    (bc bc' : Blockchain) (hv : bc.IsChainValid = true)
    (h : bc.CreateNewBlock digest fuel now = some bc') : bc'.IsChainValid = true := by
  obtain ⟨latest, newBlock, hl, hn, rfl⟩ :=
    (Blockchain.CreateNewBlock_eq_some_iff digest fuel now bc bc').mp h
  have hp := (NewBlock_previousHash digest fuel _ _ _ _ _ hn).2.2.2
  unfold Blockchain.IsChainValid at hv ⊢
  rw [Blockchain.validFrom_iff_chain'] at hv ⊢
  refine List.Chain'.append hv (List.chain'_singleton _) ?_
  intro x hx y hy
  rw [hl] at hx
  cases Option.mem_some_iff.mp hx
  cases Option.mem_some_iff.mp hy
  exact hp

theorem Blockchain.run_valid (digest : String → String) (fuel : Nat) :
    ∀ (ops : List Op) (bc bc' : Blockchain), bc.IsChainValid = true →
      Blockchain.run digest fuel bc ops = some bc' → bc'.IsChainValid = true
  | [], bc, bc', hv, h => by
    rw [Blockchain.run] at h
    cases h
    exact hv
  | op :: ops, bc, bc', hv, h => by
    rw [Blockchain.run] at h
    obtain ⟨next, hstep, hrest⟩ := Option.bind_eq_some.mp h
    refine Blockchain.run_valid digest fuel ops next bc' ?_ hrest
    cases op with
    | addTransaction transaction =>
      cases hstep
      exact hv
    | createNewBlock now =>
      exact Blockchain.CreateNewBlock_valid digest fuel now bc next hv hstep

/-- C3: every chain reached from `NewBlockchain()` by a sequence of
`AddTransaction` and `CreateNewBlock` calls (each proof-of-work search having
ended) passes `IsChainValid`. -/
theorem C3_reachable_chain_is_valid (digest : String → String) (fuel : Nat) (now : Int)
    (ops : List Op) (bc : Blockchain)
    (h : (NewBlockchain digest fuel now).bind (fun g => Blockchain.run digest fuel g ops)
      = some bc) :
    bc.IsChainValid = true := by
  obtain ⟨g, hg, hrun⟩ := Option.bind_eq_some.mp h
  obtain ⟨blk, -, rfl⟩ := Option.map_eq_some'.mp hg
  exact Blockchain.run_valid digest fuel ops { chain := [blk], currentTransactions := [] } bc
    rfl hrun

/-- C3 on the driver run `A`, `B`, `C`, seal, `D`, seal of the program. -/
theorem C3_reachable_chain_is_valid_witness :
    (NewBlockchain sha256Hex 1000000 1700136559).bind
        (fun g => Blockchain.run sha256Hex 1000000 g exOps)
      = some { chain := [exGenesis, exBlock1, exBlock2], currentTransactions := [] } ∧
    Blockchain.IsChainValid { chain := [exGenesis, exBlock1, exBlock2], currentTransactions := [] }
      = true :=
  ⟨exOps_run, C3_reachable_chain_is_valid sha256Hex 1000000 1700136559 exOps _ exOps_run⟩

/-! ## Merkle root -/

theorem exGenesis_newBlock : NewBlock sha256Hex 1000000 0 1700136559 [] "0" = some exGenesis :=
  (NewBlock_eq_some_iff sha256Hex 1000000 0 1700136559 [] "0" exGenesis).mpr
    ⟨exGenesis, "", exGenesis_pow, rfl, rfl⟩

/-- C4: `NewMerkleTree` on the empty record list returns the root `""` (the empty
string, no digest is computed), and a block built by `NewBlock` from an empty
record list has `merkleRoot == ""`. -/
theorem C4_empty_records_empty_root (digest : String → String) :
    NewMerkleTree digest [] = some { transactions := [], root := "" } ∧
    ∀ (fuel : Nat) (index timestamp : Int) (previousHash : String) (b : Block),
      NewBlock digest fuel index timestamp [] previousHash = some b → b.merkleRoot = "" := by
  refine ⟨rfl, ?_⟩
  intro fuel index timestamp previousHash b h
  obtain ⟨mined, r, -, hroot, rfl⟩ :=
    (NewBlock_eq_some_iff digest fuel index timestamp [] previousHash b).mp h
  rw [NewMerkleTree_nil] at hroot
  exact (congrArg MerkleTree.root (Option.some.inj hroot)).symm

/-- C4 on the genesis block of the program, which `NewBlock` builds from an empty
record list. -/
theorem C4_empty_records_empty_root_witness :
    NewBlock sha256Hex 1000000 0 1700136559 [] "0" = some exGenesis ∧ exGenesis.merkleRoot = "" :=
  ⟨exGenesis_newBlock,
    (C4_empty_records_empty_root sha256Hex).2 1000000 0 1700136559 "0" exGenesis
      exGenesis_newBlock⟩

/-- C5: one round of the loop of `buildMerkleTree` replaces the layer by
`reduceLayer` of it. That layer has `ceil(n/2)` elements; its `j`-th element is
the digest of the concatenation of elements `2j` and `2j+1` of the old layer
whenever both exist; and when `n` is odd its last element, at position `n/2`, is
the last element of the old layer, unchanged. Hence the root of three records
`a`, `b`, `c` is `digest(digest(digest(a) ++ digest(b)) ++ digest(c))` and the
root of two records is `digest(digest(a) ++ digest(b))`. -/
theorem C5_reduction_round (digest : String → String) :
    (∀ (rounds : Nat) (layer : List String), 1 < layer.length →
      MerkleTree.reduceLoop digest (rounds + 1) layer
        = MerkleTree.reduceLoop digest rounds (MerkleTree.reduceLayer digest layer)) ∧
    (∀ layer : List String,
      (MerkleTree.reduceLayer digest layer).length = (layer.length + 1) / 2 ∧
      (∀ (j : Nat) (x y : String), layer[2 * j]? = some x → layer[2 * j + 1]? = some y →
        (MerkleTree.reduceLayer digest layer)[j]? = some (digest (x ++ y))) ∧
      (layer.length % 2 = 1 →
        (MerkleTree.reduceLayer digest layer)[layer.length / 2]?
          = layer[layer.length - 1]?)) ∧
    (∀ a b c : String, NewMerkleTree digest [a, b, c]
      = some { transactions := [a, b, c],
               root := digest (digest (digest a ++ digest b) ++ digest c) }) ∧
    (∀ a b : String, NewMerkleTree digest [a, b]
      = some { transactions := [a, b], root := digest (digest a ++ digest b) }) := by
  refine ⟨?_, ?_, ?_, ?_⟩
  · intro rounds layer h
    rw [MerkleTree.reduceLoop, if_pos h]
  · intro layer
    exact ⟨MerkleTree.reduceLayer_length digest layer,
      MerkleTree.reduceLayer_pair digest layer, MerkleTree.reduceLayer_odd digest layer⟩
  · intro a b c
    rfl
  · intro a b
    rfl

/-! ## Sealing a block, tampering, genesis -/

set_option maxRecDepth 100000 in
theorem exBlock1_pow :
    Block.calculateHash sha256Hex 1000000
      { index := 1, timestamp := 1700182286, transactions := ["A", "B", "C"],
        previousHash := exGenesis.hash, hash := "", merkleRoot := "", nonce := 0 }
      = some { exBlock1 with merkleRoot := "" } := by
  decide

/-- C6: on a chain `c` with at least one block and pending buffer `p`, when the
proof-of-work search of the new block ends, `CreateNewBlock` returns the state
whose chain is `c` followed by exactly one new block (so the blocks of `c` are
unchanged) and whose pending buffer is empty; the new block has index `len(c)`,
the records `p` in the same order and, as previous hash, the hash of the last
block of `c`. -/
theorem C6_CreateNewBlock_appends_one_block (digest : String → String) (fuel : Nat)
    (now : Int) (bc : Blockchain) (latest mined : Block)
    (hlatest : bc.chain.getLast? = some latest)
    (hpow : Block.calculateHash digest fuel
      { index := bc.chain.length, timestamp := now, transactions := bc.currentTransactions,
        previousHash := latest.hash, hash := "", merkleRoot := "", nonce := 0 } = some mined) :
    ∃ newBlock : Block,
      bc.CreateNewBlock digest fuel now
        = some { chain := bc.chain ++ [newBlock], currentTransactions := [] } ∧
      newBlock.index = bc.chain.length ∧
      newBlock.transactions = bc.currentTransactions ∧
      newBlock.previousHash = latest.hash ∧
      newBlock.timestamp = now ∧
      newBlock.nonce = mined.nonce ∧ newBlock.hash = mined.hash := by
  obtain ⟨r, hroot⟩ := NewMerkleTree_total digest bc.currentTransactions
  have hn : NewBlock digest fuel bc.chain.length now bc.currentTransactions latest.hash
      = some { mined with merkleRoot := r } :=
    (NewBlock_eq_some_iff digest fuel _ _ _ _ _).mpr ⟨mined, r, hpow, hroot, rfl⟩
  have hf := NewBlock_previousHash digest fuel _ _ _ _ _ hn
  exact ⟨{ mined with merkleRoot := r },
    (Blockchain.CreateNewBlock_eq_some_iff digest fuel now bc _).mpr
      ⟨latest, _, hlatest, hn, rfl⟩,
    hf.1, hf.2.2.1, hf.2.2.2, hf.2.1, rfl, rfl⟩

/-- C6 on the program's chain `[exGenesis]` with pending records `A`, `B`, `C`. -/
theorem C6_CreateNewBlock_appends_one_block_witness :
    ∃ newBlock : Block,
      Blockchain.CreateNewBlock sha256Hex 1000000 1700182286
          { chain := [exGenesis], currentTransactions := ["A", "B", "C"] }
        = some { chain := [exGenesis] ++ [newBlock], currentTransactions := [] } ∧
      newBlock.index = 1 ∧
      newBlock.transactions = ["A", "B", "C"] ∧
      newBlock.previousHash = exGenesis.hash ∧
      newBlock.timestamp = 1700182286 ∧
      newBlock.nonce = 1 ∧ newBlock.hash = exBlock1.hash :=
  C6_CreateNewBlock_appends_one_block sha256Hex 1000000 1700182286
    { chain := [exGenesis], currentTransactions := ["A", "B", "C"] } exGenesis
    { exBlock1 with merkleRoot := "" } rfl exBlock1_pow

/-- C7: on a chain that passes `IsChainValid`, overwriting the previous hash of
the block at a position `k > 0` with any string other than the hash of the block
at position `k - 1` makes `IsChainValid` return false. -/
theorem C7_overwritten_previousHash_is_detected (bc : Blockchain)
    (_hvalid : bc.IsChainValid = true) (k : Nat) (hk0 : 0 < k) (hk : k < bc.chain.length)
    (w : String) (hw : w ≠ (bc.chain.get ⟨k - 1, by omega⟩).hash) :
    Blockchain.IsChainValid
      { bc with chain := bc.chain.set k { bc.chain.get ⟨k, hk⟩ with previousHash := w } }
      = false := by
  rw [Bool.eq_false_iff]
  intro hv
  rw [Blockchain.IsChainValid_iff_get] at hv
  have hlen : k < (bc.chain.set k { bc.chain.get ⟨k, hk⟩ with previousHash := w }).length := by
    rw [List.length_set]
    exact hk
  have := hv k hk0 hlen
  simp only [List.get_eq_getElem, List.getElem_set_self] at this
  rw [List.getElem_set_ne (by omega)] at this
  exact hw this

/-- C7 on the program's chain of three blocks, at position 1 and with the string
`tampered`. -/
theorem C7_overwritten_previousHash_is_detected_witness :
    Blockchain.IsChainValid
      { chain := [exGenesis, { exBlock1 with previousHash := "tampered" }, exBlock2],
        currentTransactions := [] } = false :=
  C7_overwritten_previousHash_is_detected
    { chain := [exGenesis, exBlock1, exBlock2], currentTransactions := [] }
    (by decide) 1 (by decide) (by decide) "tampered" (by decide)

/-- C8: when the proof-of-work search of the genesis block ends, `NewBlockchain()`
returns a chain of exactly one block and an empty pending buffer; that block has
index 0, no records, previous hash `"0"`, a non-empty hash and an empty Merkle
root. -/
theorem C8_NewBlockchain_is_genesis_only (digest : String → String) (fuel : Nat) (now : Int)
    (mined : Block)
    (hpow : Block.calculateHash digest fuel
      { index := 0, timestamp := now, transactions := [], previousHash := "0",
        hash := "", merkleRoot := "", nonce := 0 } = some mined) :
    NewBlockchain digest fuel now = some { chain := [mined], currentTransactions := [] } ∧
      mined.index = 0 ∧ mined.timestamp = now ∧ mined.transactions = [] ∧
      mined.previousHash = "0" ∧ mined.hash ≠ "" ∧ mined.merkleRoot = "" := by
  have hs := Block.calculateHash_sound digest fuel _ mined hpow
  have hn : NewBlock digest fuel 0 now [] "0" = some mined :=
    (NewBlock_eq_some_iff digest fuel 0 now [] "0" mined).mpr
      ⟨mined, "", hpow, NewMerkleTree_nil digest, by
        have := hs.2.2.2.2.1
        cases mined
        simp only at this
        subst this
        rfl⟩
  refine ⟨?_, hs.1, hs.2.1, hs.2.2.1, hs.2.2.2.1,
    leadsWith0000_ne_empty _ hs.2.2.2.2.2.2, hs.2.2.2.2.1⟩
  unfold NewBlockchain NewGenesisBlock
  rw [hn]
  rfl

/-- C8 at clock reading 1700136559 with the program's digest: the search ends at
nonce 2. -/
theorem C8_NewBlockchain_is_genesis_only_witness :
    NewBlockchain sha256Hex 1000000 1700136559
        = some { chain := [exGenesis], currentTransactions := [] } ∧
      exGenesis.index = 0 ∧ exGenesis.timestamp = 1700136559 ∧ exGenesis.transactions = [] ∧
      exGenesis.previousHash = "0" ∧ exGenesis.hash ≠ "" ∧ exGenesis.merkleRoot = "" :=
  C8_NewBlockchain_is_genesis_only sha256Hex 1000000 1700136559 exGenesis exGenesis_pow

/-! ## Which nonce the search stores -/

theorem Block.calculateHash_deterministic (digest : String → String) (fuel fuel' : Nat)
    (b b1 b2 : Block) (h1 : Block.calculateHash digest fuel b = some b1)
    (h2 : Block.calculateHash digest fuel' b = some b2) : b1 = b2 := by
  obtain ⟨j1, -, hmiss1, hhit1, rfl⟩ := (Block.calculateHash_eq_some_iff digest fuel b b1).mp h1
  obtain ⟨j2, -, hmiss2, hhit2, rfl⟩ :=
    (Block.calculateHash_eq_some_iff digest fuel' b b2).mp h2
  have hj : j1 = j2 := by
    rcases Nat.lt_trichotomy j1 j2 with hlt | heq | hgt
    · have := hmiss2 j1 hlt
      rw [hhit1] at this
      cases this
    · exact heq
    · have := hmiss1 j2 hgt
      rw [hhit2] at this
      cases this
  rw [hj]

set_option maxRecDepth 100000 in
theorem exStale_smaller_nonce :
    leadsWith0000 (sha256Hex (serialize 1 1700182286 ["A", "B", "C"] exGenesis.hash 1))
      = some true := by
  decide

/-- Reproducibility of proof-of-work: two runs of `NewBlock` on the same index,
timestamp, records and previous hash that both end return the same block,
whatever bounds are put on the number of iterations. -/
theorem NewBlock_deterministic (digest : String → String) (fuel fuel' : Nat)
    (index timestamp : Int) (transactions : List String) (previousHash : String)
    (b b' : Block)
    (h : NewBlock digest fuel index timestamp transactions previousHash = some b)
    (h' : NewBlock digest fuel' index timestamp transactions previousHash = some b') :
    b' = b := by
  obtain ⟨mined, r, hm, hroot, rfl⟩ :=
    (NewBlock_eq_some_iff digest fuel index timestamp transactions previousHash b).mp h
  obtain ⟨mined', r', hm', hroot', rfl⟩ :=
    (NewBlock_eq_some_iff digest fuel' index timestamp transactions previousHash b').mp h'
  have hmined := Block.calculateHash_deterministic digest fuel' fuel _ _ _ hm' hm
  have hr : r' = r := by
    rw [hroot] at hroot'
    exact (congrArg MerkleTree.root (Option.some.inj hroot')).symm
  rw [hmined, hr]

/-- A search of `NewBlock` that ends within 2^63 iterations, that is before the
64-bit nonce counter overflows, stores a non-negative nonce whose digest starts
with `0000`, and no smaller non-negative nonce has such a digest. -/
theorem NewBlock_nonce_of_bounded_search (digest : String → String) (fuel : Nat)
    (index timestamp : Int) (transactions : List String) (previousHash : String) (b : Block)
    (h : NewBlock digest fuel index timestamp transactions previousHash = some b)
    (hfuel : fuel ≤ 9223372036854775808) :
    0 ≤ b.nonce ∧
    leadsWith0000 (digest (serialize index timestamp transactions previousHash b.nonce))
      = some true ∧
    (∀ n : Int, 0 ≤ n → n < b.nonce →
      leadsWith0000 (digest (serialize index timestamp transactions previousHash n))
        = some false) := by
  obtain ⟨mined, r, hm, hroot, rfl⟩ :=
    (NewBlock_eq_some_iff digest fuel index timestamp transactions previousHash b).mp h
  obtain ⟨j, hj, hmiss, hhit, rfl⟩ := (Block.calculateHash_eq_some_iff digest fuel _ _).mp hm
  simp only at hmiss hhit
  have hat : ∀ i : Nat, i ≤ j → nonceAt 0 i = (i : Int) := by
    intro i hi
    rw [nonceAt_of_no_overflow 0 i (by omega) (by omega)]
    omega
  refine ⟨?_, ?_, ?_⟩
  · show 0 ≤ nonceAt 0 j
    rw [hat j (Nat.le_refl j)]
    omega
  · exact hhit
  · intro n hn0 hnj
    replace hnj : n < nonceAt 0 j := hnj
    rw [hat j (Nat.le_refl j)] at hnj
    have hlt : n.toNat < j := by omega
    have := hmiss n.toNat hlt
    rw [hat n.toNat (Nat.le_of_lt hlt), Int.toNat_of_nonneg hn0] at this
    exact this

/-- C10 fails as stated: handed the block `exStale`, whose nonce is 101654 and
whose previous hash is not the hash of the tip, `AddBlock` appends a block with
nonce 101654, although with the re-stamped fields the nonce 1 already gives a
digest that starts with `0000`. The committed nonce is not the least `n >= 0`. -/
theorem C10_counterexample :
    Blockchain.AddBlock sha256Hex 1000000
        { chain := [exGenesis], currentTransactions := [] } exStale
      = some { chain := [exGenesis, exStaleMined], currentTransactions := [] } ∧
    exStale.nonce = 101654 ∧ exStale.previousHash ≠ exGenesis.hash ∧
    exStaleMined.nonce = 101654 ∧
    leadsWith0000 (sha256Hex (serialize exStaleMined.index exStaleMined.timestamp
      exStaleMined.transactions exStaleMined.previousHash 1)) = some true ∧
    ¬ (∀ n : Int, 0 ≤ n → n < exStaleMined.nonce →
      leadsWith0000 (sha256Hex (serialize exStaleMined.index exStaleMined.timestamp
        exStaleMined.transactions exStaleMined.previousHash n)) ≠ some true) :=
  ⟨exStale_added, rfl, by decide, rfl, exStale_smaller_nonce,
    fun hall => hall 1 (by decide) (by decide) exStale_smaller_nonce⟩

/-- C10, amended: the proof-of-work pass of `AddBlock` resumes from the nonce `m`
the block already carries (nothing resets it to 0). With `j` the number of
increments the search makes, the committed nonce is the value of the counter
after `j` increments from `m`, the digest of the serialization of the re-stamped
fields with that nonce starts with `0000`, and none of the `j` values tried
before it does. When the counter does not overflow the committed nonce is
`m + j`, the least `n >= m` that satisfies the constraint. -/
theorem C10_AddBlock_resumes_from_block_nonce (digest : String → String) (fuel : Nat)
    (bc bc' : Blockchain) (newBlock : Block)
    (h : bc.AddBlock digest fuel newBlock = some bc') :
    ∃ (latest blk : Block) (j : Nat),
      bc.chain.getLast? = some latest ∧ bc'.chain = bc.chain ++ [blk] ∧ j < fuel ∧
      blk.previousHash = latest.hash ∧
      blk.nonce = nonceAt newBlock.nonce j ∧
      leadsWith0000 (digest (serialize newBlock.index newBlock.timestamp newBlock.transactions
        latest.hash blk.nonce)) = some true ∧
      (∀ i : Nat, i < j →
        leadsWith0000 (digest (serialize newBlock.index newBlock.timestamp
          newBlock.transactions latest.hash (nonceAt newBlock.nonce i))) = some false) ∧
      (-9223372036854775808 ≤ newBlock.nonce → newBlock.nonce + j < 9223372036854775808 →
        blk.nonce = newBlock.nonce + j ∧
        ∀ n : Int, newBlock.nonce ≤ n → n < blk.nonce →
          leadsWith0000 (digest (serialize newBlock.index newBlock.timestamp
            newBlock.transactions latest.hash n)) = some false) := by
  obtain ⟨latest, mined, hl, hm, rfl⟩ :=
    (Blockchain.AddBlock_eq_some_iff digest fuel bc bc' newBlock).mp h
  obtain ⟨j, hj, hmiss, hhit, rfl⟩ := (Block.calculateHash_eq_some_iff digest fuel _ _).mp hm
  simp only at hmiss hhit
  refine ⟨latest, _, j, hl, rfl, hj, rfl, rfl, hhit, hmiss, ?_⟩
  intro hlo hhi
  have hat : ∀ i : Nat, i ≤ j → nonceAt newBlock.nonce i = newBlock.nonce + (i : Int) := by
    intro i hi
    exact nonceAt_of_no_overflow newBlock.nonce i hlo (by omega)
  refine ⟨hat j (Nat.le_refl j), ?_⟩
  intro n hn0 hnj
  simp only at hnj
  rw [hat j (Nat.le_refl j)] at hnj
  have hlt : (n - newBlock.nonce).toNat < j := by omega
  have := hmiss (n - newBlock.nonce).toNat hlt
  rw [hat _ (Nat.le_of_lt hlt), Int.toNat_of_nonneg (by omega)] at this
  rw [show newBlock.nonce + (n - newBlock.nonce) = n by ring] at this
  exact this

/-- C10, amended, on the chain `[exGenesis]` and the block `exStale`: the search
resumes at nonce 101654 and ends there at once. -/
theorem C10_AddBlock_resumes_from_block_nonce_witness :
    ∃ (latest blk : Block) (j : Nat),
      [exGenesis].getLast? = some latest ∧ [exGenesis, exStaleMined] = [exGenesis] ++ [blk] ∧
      j < 1000000 ∧
      blk.previousHash = latest.hash ∧
      blk.nonce = nonceAt exStale.nonce j ∧
      leadsWith0000 (sha256Hex (serialize exStale.index exStale.timestamp exStale.transactions
        latest.hash blk.nonce)) = some true ∧
      (∀ i : Nat, i < j →
        leadsWith0000 (sha256Hex (serialize exStale.index exStale.timestamp
          exStale.transactions latest.hash (nonceAt exStale.nonce i))) = some false) ∧
      (-9223372036854775808 ≤ exStale.nonce → exStale.nonce + j < 9223372036854775808 →
        blk.nonce = exStale.nonce + j ∧
        ∀ n : Int, exStale.nonce ≤ n → n < blk.nonce →
          leadsWith0000 (sha256Hex (serialize exStale.index exStale.timestamp
            exStale.transactions latest.hash n)) = some false) :=
  C10_AddBlock_resumes_from_block_nonce sha256Hex 1000000
    { chain := [exGenesis], currentTransactions := [] }
    { chain := [exGenesis, exStaleMined], currentTransactions := [] } exStale exStale_added

/-! ## Further facts on the concrete runs -/

set_option maxRecDepth 100000 in
theorem exBlock1_root :
    NewMerkleTree sha256Hex ["A", "B", "C"]
      = some { transactions := ["A", "B", "C"], root := exBlock1.merkleRoot } := by
  decide

set_option maxRecDepth 100000 in
theorem exSpaced_newBlock :
    NewBlock sha256Hex 1000000 1 1700312427 ["a b"] exGenesis.hash = some exSpaced := by
  decide

set_option maxRecDepth 100000 in
theorem exSplit_newBlock :
    NewBlock sha256Hex 1000000 1 1700312427 ["a", "b"] exGenesis.hash = some exSplit := by
  decide

/-! ## Frame of proof-of-work, Merkle roots and indices along the chain -/

/-- C11: `calculateHash` changes only the hash and the nonce of a block: index,
timestamp, records, previous hash and Merkle root after the call are what they
were before it. In particular the block `AddBlock` appends has the timestamp
(and index, records and Merkle root) of the block it was handed; only its
previous hash is re-stamped, before the search, to the hash of the tip. -/
theorem C11_calculateHash_frame (digest : String → String) :
    (∀ (fuel : Nat) (b b' : Block), Block.calculateHash digest fuel b = some b' →
      b'.index = b.index ∧ b'.timestamp = b.timestamp ∧ b'.transactions = b.transactions ∧
        b'.previousHash = b.previousHash ∧ b'.merkleRoot = b.merkleRoot) ∧
    (∀ (fuel : Nat) (bc bc' : Blockchain) (newBlock : Block),
      bc.AddBlock digest fuel newBlock = some bc' →
      ∃ blk, bc'.chain = bc.chain ++ [blk] ∧ blk.timestamp = newBlock.timestamp ∧
        blk.index = newBlock.index ∧ blk.transactions = newBlock.transactions ∧
        blk.merkleRoot = newBlock.merkleRoot) := by
  refine ⟨?_, ?_⟩
  · intro fuel b b' h
    have hs := Block.calculateHash_sound digest fuel b b' h
    exact ⟨hs.1, hs.2.1, hs.2.2.1, hs.2.2.2.1, hs.2.2.2.2.1⟩
  · intro fuel bc bc' newBlock h
    obtain ⟨latest, mined, -, hm, rfl⟩ :=
      (Blockchain.AddBlock_eq_some_iff digest fuel bc bc' newBlock).mp h
    have hs := Block.calculateHash_sound digest fuel _ mined hm
    exact ⟨mined, rfl, hs.2.1, hs.1, hs.2.2.1, hs.2.2.2.2.1⟩

/-- C11 on the genesis search of the program and on the block `exStale` handed to
`AddBlock`. -/
theorem C11_calculateHash_frame_witness :
    (exGenesis.index = 0 ∧ exGenesis.timestamp = 1700136559 ∧ exGenesis.transactions = [] ∧
      exGenesis.previousHash = "0" ∧ exGenesis.merkleRoot = "") ∧
    (∃ blk, [exGenesis, exStaleMined] = [exGenesis] ++ [blk] ∧
      blk.timestamp = exStale.timestamp ∧ blk.index = exStale.index ∧
      blk.transactions = exStale.transactions ∧ blk.merkleRoot = exStale.merkleRoot) :=
  ⟨(C11_calculateHash_frame sha256Hex).1 1000000 _ _ exGenesis_pow,
    (C11_calculateHash_frame sha256Hex).2 1000000 _ _ _ exStale_added⟩

theorem NewBlock_merkleRoot (digest : String → String) (fuel : Nat) (index timestamp : Int)
    (transactions : List String) (previousHash : String) (b : Block)
    (h : NewBlock digest fuel index timestamp transactions previousHash = some b) :
    NewMerkleTree digest b.transactions
      = some { transactions := b.transactions, root := b.merkleRoot } := by
  obtain ⟨mined, r, hm, hroot, rfl⟩ := (NewBlock_eq_some_iff digest fuel _ _ _ _ _).mp h
  have hs := Block.calculateHash_sound digest fuel _ mined hm
  show NewMerkleTree digest mined.transactions
    = some { transactions := mined.transactions, root := r }
  rw [hs.2.2.1]
  exact hroot

theorem Blockchain.run_merkleRoot (digest : String → String) (fuel : Nat) :
    ∀ (ops : List Op) (bc bc' : Blockchain),
      (∀ b ∈ bc.chain, NewMerkleTree digest b.transactions
        = some { transactions := b.transactions, root := b.merkleRoot }) →
      Blockchain.run digest fuel bc ops = some bc' →
      ∀ b ∈ bc'.chain, NewMerkleTree digest b.transactions
        = some { transactions := b.transactions, root := b.merkleRoot }
  | [], bc, bc', hinv, h => by
    rw [Blockchain.run] at h
    cases h
    exact hinv
  | op :: ops, bc, bc', hinv, h => by
    rw [Blockchain.run] at h
    obtain ⟨next, hstep, hrest⟩ := Option.bind_eq_some.mp h
    refine Blockchain.run_merkleRoot digest fuel ops next bc' ?_ hrest
    cases op with
    | addTransaction transaction =>
      cases hstep
      exact hinv
    | createNewBlock now =>
      obtain ⟨latest, newBlock, -, hn, rfl⟩ :=
        (Blockchain.CreateNewBlock_eq_some_iff digest fuel now bc next).mp hstep
      intro b hb
      rcases List.mem_append.mp hb with hb | hb
      · exact hinv b hb
      · cases List.mem_singleton.mp hb
        exact NewBlock_merkleRoot digest fuel _ _ _ _ _ hn

/-- C12: in every chain reached from `NewBlockchain()` by `AddTransaction` and
`CreateNewBlock`, the Merkle root of each block is the root `NewMerkleTree`
computes from the records of that block. It is therefore a function of the
records alone: two blocks of the chain with the same records have the same
Merkle root, whatever their index, timestamp, previous hash, nonce and hash, and
the proof-of-work pass at append time has not changed it. -/
theorem C12_merkleRoot_of_records (digest : String → String) (fuel : Nat) (now : Int)
    (ops : List Op) (bc : Blockchain)
    (h : (NewBlockchain digest fuel now).bind (fun g => Blockchain.run digest fuel g ops)
      = some bc) :
    (∀ b ∈ bc.chain, NewMerkleTree digest b.transactions
      = some { transactions := b.transactions, root := b.merkleRoot }) ∧
    (∀ b ∈ bc.chain, ∀ b' ∈ bc.chain, b.transactions = b'.transactions →
      b.merkleRoot = b'.merkleRoot) := by
  obtain ⟨g, hg, hrun⟩ := Option.bind_eq_some.mp h
  obtain ⟨blk, hblk, rfl⟩ := Option.map_eq_some'.mp hg
  have hinv : ∀ b ∈ bc.chain, NewMerkleTree digest b.transactions
      = some { transactions := b.transactions, root := b.merkleRoot } := by
    refine Blockchain.run_merkleRoot digest fuel ops
      { chain := [blk], currentTransactions := [] } bc ?_ hrun
    intro b hb
    cases List.mem_singleton.mp hb
    exact NewBlock_merkleRoot digest fuel _ _ _ _ _ hblk
  refine ⟨hinv, ?_⟩
  intro b hb b' hb' heq
  have h1 := hinv b hb
  have h2 := hinv b' hb'
  rw [heq, h2] at h1
  exact (congrArg MerkleTree.root (Option.some.inj h1)).symm

/-- C12 on the driver run `A`, `B`, `C`, seal, `D`, seal of the program. -/
theorem C12_merkleRoot_of_records_witness :
    (∀ b ∈ [exGenesis, exBlock1, exBlock2], NewMerkleTree sha256Hex b.transactions
      = some { transactions := b.transactions, root := b.merkleRoot }) ∧
    (∀ b ∈ [exGenesis, exBlock1, exBlock2], ∀ b' ∈ [exGenesis, exBlock1, exBlock2],
      b.transactions = b'.transactions → b.merkleRoot = b'.merkleRoot) :=
  C12_merkleRoot_of_records sha256Hex 1000000 1700136559 exOps
    { chain := [exGenesis, exBlock1, exBlock2], currentTransactions := [] } exOps_run

theorem Blockchain.run_index (digest : String → String) (fuel : Nat) :
    ∀ (ops : List Op) (bc bc' : Blockchain),
      (∀ (i : Nat) (h : i < bc.chain.length), (bc.chain.get ⟨i, h⟩).index = i) →
      Blockchain.run digest fuel bc ops = some bc' →
      bc'.chain.length = bc.chain.length + ops.countP Op.isCreateNewBlock ∧
      ∀ (i : Nat) (h : i < bc'.chain.length), (bc'.chain.get ⟨i, h⟩).index = i
  | [], bc, bc', hinv, h => by
    rw [Blockchain.run] at h
    cases h
    exact ⟨by simp, hinv⟩
  | op :: ops, bc, bc', hinv, h => by
    rw [Blockchain.run] at h
    obtain ⟨next, hstep, hrest⟩ := Option.bind_eq_some.mp h
    cases op with
    | addTransaction transaction =>
      cases hstep
      have := Blockchain.run_index digest fuel ops (bc.AddTransaction transaction) bc' hinv hrest
      refine ⟨?_, this.2⟩
      rw [this.1]
      simp [Blockchain.AddTransaction, Op.isCreateNewBlock]
    | createNewBlock now =>
      obtain ⟨latest, newBlock, -, hn, rfl⟩ :=
        (Blockchain.CreateNewBlock_eq_some_iff digest fuel now bc next).mp hstep
      have hidx := (NewBlock_previousHash digest fuel _ _ _ _ _ hn).1
      have hinv' : ∀ (i : Nat) (h : i < (bc.chain ++ [newBlock]).length),
          ((bc.chain ++ [newBlock]).get ⟨i, h⟩).index = i := by
        intro i hi
        rw [List.get_eq_getElem]
        by_cases hlt : i < bc.chain.length
        · rw [List.getElem_append_left hlt]
          exact hinv i hlt
        · have hi' : i = bc.chain.length := by
            rw [List.length_append, List.length_singleton] at hi
            omega
          subst hi'
          rw [List.getElem_append_right (Nat.le_refl _)]
          simp only [Nat.sub_self, List.getElem_cons_zero]
          exact hidx
      have := Blockchain.run_index digest fuel ops _ bc' hinv' hrest
      refine ⟨?_, this.2⟩
      rw [this.1]
      simp only [List.length_append, List.length_singleton, List.countP_cons,
        Op.isCreateNewBlock]
      simp
      omega

/-- C15: in every state reached from `NewBlockchain()` by `AddTransaction` and
`CreateNewBlock`, the chain is not empty, its length is 1 plus the number of
`CreateNewBlock` calls made, and the block at position `i` has index `i`. -/
theorem C15_length_and_indices (digest : String → String) (fuel : Nat) (now : Int)
    (ops : List Op) (bc : Blockchain)
    (h : (NewBlockchain digest fuel now).bind (fun g => Blockchain.run digest fuel g ops)
      = some bc) :
    bc.chain ≠ [] ∧
    bc.chain.length = 1 + ops.countP Op.isCreateNewBlock ∧
    ∀ (i : Nat) (hi : i < bc.chain.length), ((bc.chain.get ⟨i, hi⟩).index : Int) = i := by
  obtain ⟨g, hg, hrun⟩ := Option.bind_eq_some.mp h
  obtain ⟨blk, hblk, rfl⟩ := Option.map_eq_some'.mp hg
  have hidx := (NewBlock_previousHash digest fuel _ _ _ _ _ hblk).1
  have hinv : ∀ (i : Nat) (h : i < [blk].length),
      (([blk] : List Block).get ⟨i, h⟩).index = i := by
    intro i hi
    have : i = 0 := by simpa using hi
    subst this
    exact hidx
  have := Blockchain.run_index digest fuel ops
    { chain := [blk], currentTransactions := [] } bc hinv hrun
  have hlen : bc.chain.length = 1 + ops.countP Op.isCreateNewBlock := by
    rw [this.1]
    rfl
  refine ⟨?_, hlen, this.2⟩
  intro hnil
  rw [hnil] at hlen
  simp only [List.length_nil] at hlen
  omega

/-- C15 on the driver run `A`, `B`, `C`, seal, `D`, seal of the program: the
chain has length 3. -/
theorem C15_length_and_indices_witness :
    [exGenesis, exBlock1, exBlock2] ≠ [] ∧
    [exGenesis, exBlock1, exBlock2].length = 1 + exOps.countP Op.isCreateNewBlock ∧
    [exGenesis, exBlock1, exBlock2].length = 3 ∧
    ∀ (i : Nat) (hi : i < [exGenesis, exBlock1, exBlock2].length),
      (([exGenesis, exBlock1, exBlock2].get ⟨i, hi⟩).index : Int) = i :=
  have h := C15_length_and_indices sha256Hex 1000000 1700136559 exOps
    { chain := [exGenesis, exBlock1, exBlock2], currentTransactions := [] } exOps_run
  ⟨h.1, h.2.1, rfl, h.2.2⟩

/-- C16: `AddTransaction(r)` makes the pending buffer the old buffer followed by
`r`, for every string `r`, and leaves the chain of blocks as it was. -/
theorem C16_AddTransaction_appends (bc : Blockchain) (r : String) :
    (bc.AddTransaction r).currentTransactions = bc.currentTransactions ++ [r] ∧
    (bc.AddTransaction r).chain = bc.chain ∧
    (Blockchain.AddTransaction { chain := bc.chain, currentTransactions := [] } "")
      = { chain := bc.chain, currentTransactions := [""] } :=
  ⟨rfl, rfl, rfl⟩

/-! ## What validation does not look at -/

theorem Blockchain.validFrom_iff_chain'_map (l : List Block) :
    Blockchain.validFrom l = true ↔
      List.Chain' (fun p c : String × String => c.1 = p.2)
        (l.map (fun b => (b.previousHash, b.hash))) := by
  rw [Blockchain.validFrom_iff_chain', List.chain'_map]

theorem Blockchain.validFrom_congr (l1 l2 : List Block)
    (h : l1.map (fun b => (b.previousHash, b.hash)) = l2.map (fun b => (b.previousHash, b.hash))) :
    Blockchain.validFrom l1 = Blockchain.validFrom l2 := by
  rw [Bool.eq_iff_iff, Blockchain.validFrom_iff_chain'_map, Blockchain.validFrom_iff_chain'_map, h]

theorem List.map_modify_of_fixed {α β : Type} (f : α → β) (g : α → α)
    (hg : ∀ a, f (g a) = f a) :
    ∀ (k : Nat) (l : List α), (List.modify g k l).map f = l.map f
  | _, [] => by simp
  | 0, a :: l => by simp [hg]
  | k + 1, a :: l => by simp [List.map_modify_of_fixed f g hg k l]

theorem Blockchain.IsChainValid_iff_getElem? (bc : Blockchain) :
    bc.IsChainValid = true ↔
      ∀ (i : Nat) (cur prev : Block), bc.chain[i + 1]? = some cur → bc.chain[i]? = some prev →
        cur.previousHash = prev.hash := by
  rw [Blockchain.IsChainValid_iff_get]
  constructor
  · intro h i cur prev hcur hprev
    obtain ⟨h1, rfl⟩ := List.getElem?_eq_some.mp hcur
    obtain ⟨h0, rfl⟩ := List.getElem?_eq_some.mp hprev
    exact h (i + 1) (by omega) h1
  · intro h i hi1 hi2
    obtain ⟨j, rfl⟩ : ∃ j, i = j + 1 := ⟨i - 1, by omega⟩
    exact h j _ _ (List.getElem?_eq_getElem hi2) (List.getElem?_eq_getElem (by omega))

/-- C14: validation checks linkage only. On a chain that passes `IsChainValid`,
overwriting the hash of the block at any position `k` with any string `h`, and
the previous hash of the block at position `k + 1` (when there is one) with the
same `h`, leaves `IsChainValid` returning true. On any chain, overwriting the
index, timestamp, records, Merkle root and nonce of a block does not change the
result of `IsChainValid`. -/
theorem C14_validation_checks_linkage_only (bc : Blockchain) :
    (bc.IsChainValid = true → ∀ (k : Nat) (h : String),
      Blockchain.IsChainValid
        { bc with chain :=
            (List.modify (fun b => { b with previousHash := h }) (k + 1)
              (List.modify (fun b => { b with hash := h }) k bc.chain)) } = true) ∧
    (∀ (k : Nat) (index timestamp nonce : Int) (transactions : List String)
        (merkleRoot : String),
      Blockchain.IsChainValid
        { bc with chain :=
            (List.modify
              (fun b =>
                { b with
                  index := index, timestamp := timestamp, transactions := transactions,
                  merkleRoot := merkleRoot, nonce := nonce })
              k bc.chain) }
        = bc.IsChainValid) := by
  refine ⟨?_, ?_⟩
  · intro hvalid k h
    rw [Blockchain.IsChainValid_iff_getElem?] at hvalid ⊢
    intro i cur prev hcur hprev
    simp only [List.getElem?_modify] at hcur hprev
    cases hc0 : bc.chain[i + 1]? with
    | none => rw [hc0] at hcur; cases hcur
    | some c0 =>
      cases hp0 : bc.chain[i]? with
      | none => rw [hp0] at hprev; cases hprev
      | some p0 =>
        have hlink := hvalid i c0 p0 hc0 hp0
        rw [hc0] at hcur
        rw [hp0] at hprev
        simp only [Option.map_eq_map, Option.map_some', Option.some.injEq] at hcur hprev
        subst hcur
        subst hprev
        by_cases hk : k = i
        · subst hk
          have hk2 : ¬ (k = k + 1) := by omega
          simp only [hk2, if_true, if_false]
          split_ifs <;> rfl
        · have hk1 : ¬ (k + 1 = i + 1) := by omega
          simp only [hk, hk1, if_false]
          split_ifs <;> exact hlink
  · intro k index timestamp nonce transactions merkleRoot
    unfold Blockchain.IsChainValid
    exact Blockchain.validFrom_congr _ _
      (List.map_modify_of_fixed (fun b : Block => (b.previousHash, b.hash))
        (fun b =>
          { b with
            index := index, timestamp := timestamp, transactions := transactions,
            merkleRoot := merkleRoot, nonce := nonce })
        (fun _ => rfl) k bc.chain)

/-- C14 on the program's chain of three blocks: the hash of the block at position
1 and the previous hash of the block at position 2 are overwritten with `forged`,
and the chain still passes. -/
theorem C14_validation_checks_linkage_only_witness :
    Blockchain.IsChainValid
      { chain := [exGenesis, { exBlock1 with hash := "forged" },
          { exBlock2 with previousHash := "forged" }],
        currentTransactions := [] } = true :=
  (C14_validation_checks_linkage_only
    { chain := [exGenesis, exBlock1, exBlock2], currentTransactions := [] }).1
    (by decide) 1 "forged"

/-! ## Termination of the Merkle loop -/

theorem MerkleTree.reduceLoop_of_length_le_one (digest : String → String) :
    ∀ (rounds : Nat) (l : List String), l.length ≤ 1 →
      MerkleTree.reduceLoop digest rounds l = l
  | 0, _, _ => rfl
  | rounds + 1, l, h => by
    rw [MerkleTree.reduceLoop, if_neg (by omega)]

theorem MerkleTree.reduceLoop_stable (digest : String → String) :
    ∀ (rounds : Nat) (l : List String), l.length ≤ rounds → ∀ extra : Nat,
      MerkleTree.reduceLoop digest (rounds + extra) l = MerkleTree.reduceLoop digest rounds l
  | 0, l, h, extra => by
    rw [MerkleTree.reduceLoop_of_length_le_one digest _ l (by omega),
      MerkleTree.reduceLoop_of_length_le_one digest _ l (by omega)]
  | rounds + 1, l, h, extra => by
    have e : rounds + 1 + extra = (rounds + extra) + 1 := by omega
    rw [e, MerkleTree.reduceLoop, MerkleTree.reduceLoop]
    split_ifs with h1
    · apply MerkleTree.reduceLoop_stable digest rounds
      rw [MerkleTree.reduceLayer_length]
      omega
    · rfl

theorem NewMerkleTree_of_ne_nil (digest : String → String) (transactions : List String)
    (hne : transactions ≠ []) :
    ∃ root : String,
      MerkleTree.reduceLoop digest transactions.length (transactions.map digest) = [root] ∧
      NewMerkleTree digest transactions
        = some { transactions := transactions, root := root } := by
  have hlen : (transactions.map digest).length = transactions.length := List.length_map _ _
  have hne' : transactions.map digest ≠ [] := by
    intro hnil
    rw [hnil] at hlen
    exact hne (List.length_eq_zero.mp hlen.symm)
  have h1 := MerkleTree.reduceLoop_length_le_one digest transactions.length
    (transactions.map digest) (Nat.le_of_eq hlen)
  have h2 := MerkleTree.reduceLoop_ne_nil digest transactions.length _ hne'
  obtain ⟨root, hroot⟩ : ∃ root, MerkleTree.reduceLoop digest transactions.length
      (transactions.map digest) = [root] := by
    match hm : MerkleTree.reduceLoop digest transactions.length (transactions.map digest),
      h1, h2 with
    | [], _, h2 => exact absurd rfl h2
    | [x], _, _ => exact ⟨x, rfl⟩
    | _ :: _ :: _, h1, _ => simp at h1
  refine ⟨root, hroot, ?_⟩
  unfold NewMerkleTree MerkleTree.buildMerkleTree
  have hpos : ¬ transactions.length = 0 := fun h0 => hne (List.length_eq_zero.mp h0)
  have hfun : MerkleTree.hashTransaction digest = digest := rfl
  simp only [if_neg hpos, hfun, hlen, hroot]

/-- C17: for every non-empty record list `buildMerkleTree` terminates. The leaf
layer has one digest per record, in input order; a round turns a layer of length
`n > 1` into one of length `ceil(n/2) < n`; the loop ends with exactly one
element, whatever bound at least the number of records is put on the number of
rounds, and that element is the root `NewMerkleTree` returns (the index `[0]`
is in bounds); on a single record the loop body is never run and the root is
the digest of the record. -/
theorem C17_buildMerkleTree_terminates (digest : String → String)
    (transactions : List String) (hne : transactions ≠ []) :
    (transactions.map (MerkleTree.hashTransaction digest)).length = transactions.length ∧
    (∀ i : Nat, (transactions.map (MerkleTree.hashTransaction digest))[i]?
      = transactions[i]?.map digest) ∧
    (∀ layer : List String, 1 < layer.length →
      (MerkleTree.reduceLayer digest layer).length = (layer.length + 1) / 2 ∧
      (MerkleTree.reduceLayer digest layer).length < layer.length) ∧
    (∃ root : String,
      (∀ rounds : Nat, transactions.length ≤ rounds →
        MerkleTree.reduceLoop digest rounds
          (transactions.map (MerkleTree.hashTransaction digest)) = [root]) ∧
      NewMerkleTree digest transactions
        = some { transactions := transactions, root := root }) ∧
    (∀ (r : String) (rounds : Nat),
      MerkleTree.reduceLoop digest rounds [MerkleTree.hashTransaction digest r] = [digest r] ∧
      NewMerkleTree digest [r] = some { transactions := [r], root := digest r }) := by
  refine ⟨List.length_map _ _, ?_, ?_, ?_, ?_⟩
  · intro i
    rw [List.getElem?_map]
    rfl
  · intro layer h
    refine ⟨MerkleTree.reduceLayer_length digest layer, ?_⟩
    rw [MerkleTree.reduceLayer_length]
    omega
  · have hfun : MerkleTree.hashTransaction digest = digest := rfl
    obtain ⟨root, hroot, hnew⟩ := NewMerkleTree_of_ne_nil digest transactions hne
    refine ⟨root, ?_, hnew⟩
    intro rounds hr
    obtain ⟨extra, rfl⟩ : ∃ extra, rounds = transactions.length + extra :=
      ⟨rounds - transactions.length, by omega⟩
    rw [hfun, MerkleTree.reduceLoop_stable digest transactions.length _
      (Nat.le_of_eq (List.length_map _ _)) extra]
    exact hroot
  · intro r rounds
    refine ⟨MerkleTree.reduceLoop_of_length_le_one digest rounds _ (by simp), rfl⟩

/-- C17 on the records `A`, `B`, `C` with the program's digest. -/
theorem C17_buildMerkleTree_terminates_witness :
    ∃ root : String,
      (∀ rounds : Nat, ["A", "B", "C"].length ≤ rounds →
        MerkleTree.reduceLoop sha256Hex rounds
          (["A", "B", "C"].map (MerkleTree.hashTransaction sha256Hex)) = [root]) ∧
      NewMerkleTree sha256Hex ["A", "B", "C"]
        = some { transactions := ["A", "B", "C"], root := root } :=
  (C17_buildMerkleTree_terminates sha256Hex ["A", "B", "C"] (by decide)).2.2.2.1

/-! ## The second proof-of-work pass, and what the search sees of the records -/

/-- C18: running `calculateHash` on a block whose hash `calculateHash` has just
produced, with no field changed in between, returns the same block (nonce and
hash as they were). Therefore in `CreateNewBlock` the proof-of-work pass at
append time is a no-op: the block stored in the chain is the block `NewBlock`
returned, with the (nonce, hash) pair computed at construction time. -/
theorem C18_second_pass_is_noop (digest : String → String) :
    (∀ (fuel : Nat) (b b' : Block), Block.calculateHash digest fuel b = some b' →
      ∀ fuel' : Nat, 0 < fuel' → Block.calculateHash digest fuel' b' = some b') ∧
    (∀ (fuel : Nat) (now : Int) (bc bc' : Blockchain),
      bc.CreateNewBlock digest fuel now = some bc' →
      ∃ latest newBlock : Block,
        bc.chain.getLast? = some latest ∧
        NewBlock digest fuel bc.chain.length now bc.currentTransactions latest.hash
          = some newBlock ∧
        Blockchain.AddBlock digest fuel { bc with currentTransactions := [] } newBlock
          = some bc' ∧
        bc'.chain = bc.chain ++ [newBlock]) := by
  refine ⟨?_, ?_⟩
  · intro fuel b b' h fuel' hpos
    have hs := Block.calculateHash_sound digest fuel b b' h
    obtain ⟨n, rfl⟩ : ∃ n, fuel' = n + 1 := ⟨fuel' - 1, by omega⟩
    have hhit : leadsWith0000 (digest b'.blockString) = some true := by
      rw [← hs.2.2.2.2.2.1]
      exact hs.2.2.2.2.2.2
    rw [Block.calculateHash_hit digest n b' hhit, ← hs.2.2.2.2.2.1]
  · intro fuel now bc bc' h
    obtain ⟨latest, newBlock, hl, hn, rfl⟩ :=
      (Blockchain.CreateNewBlock_eq_some_iff digest fuel now bc bc').mp h
    refine ⟨latest, newBlock, hl, hn, ?_, rfl⟩
    unfold Blockchain.CreateNewBlock Blockchain.GetLatestBlock at h
    rw [hl, Option.some_bind, hn, Option.some_bind] at h
    exact h

/-- C18 on the program: the genesis block is mined again without change, and the
block sealed from `A`, `B`, `C` is stored as `NewBlock` returned it. -/
theorem C18_second_pass_is_noop_witness :
    Block.calculateHash sha256Hex 1 exGenesis = some exGenesis ∧
    (∃ latest newBlock : Block,
      [exGenesis].getLast? = some latest ∧
      NewBlock sha256Hex 1000000 1 1700182286 ["A", "B", "C"] latest.hash = some newBlock ∧
      Blockchain.AddBlock sha256Hex 1000000
          { chain := [exGenesis], currentTransactions := [] } newBlock
        = some { chain := [exGenesis, exBlock1], currentTransactions := [] } ∧
      [exGenesis, exBlock1] = [exGenesis] ++ [newBlock]) :=
  ⟨(C18_second_pass_is_noop sha256Hex).1 1000000 _ exGenesis exGenesis_pow 1 (by decide),
    (C18_second_pass_is_noop sha256Hex).2 1000000 1700182286
      { chain := [exGenesis], currentTransactions := ["A", "B", "C"] }
      { chain := [exGenesis, exBlock1], currentTransactions := [] }
      ((Blockchain.CreateNewBlock_eq_some_iff sha256Hex 1000000 1700182286 _ _).mpr
        ⟨exGenesis, exBlock1, rfl,
          (NewBlock_eq_some_iff sha256Hex 1000000 _ _ _ _ _).mpr
            ⟨{ exBlock1 with merkleRoot := "" }, exBlock1.merkleRoot, exBlock1_pow,
              exBlock1_root, rfl⟩,
          rfl⟩)⟩

theorem serialize_congr (index timestamp : Int) (l1 l2 : List String) (previousHash : String)
    (n : Int) (h : fmtStrings l1 = fmtStrings l2) :
    serialize index timestamp l1 previousHash n = serialize index timestamp l2 previousHash n := by
  unfold serialize
  rw [h]

/-- C20: the search sees the records only through their rendering by `%v`. With
equal index, timestamp and previous hash, two record lists with the same
rendering are mined by `NewBlock` to the same (nonce, hash) pair. The lists
`["a b"]` and `["a", "b"]` have the same rendering, while their Merkle roots are
`digest("a b")` and `digest(digest("a") ++ digest("b"))`. -/
theorem C20_search_sees_rendering_only (digest : String → String) (fuel : Nat)
    (index timestamp : Int) (previousHash : String) (l1 l2 : List String) (b1 : Block)
    (hfmt : fmtStrings l1 = fmtStrings l2)
    (h1 : NewBlock digest fuel index timestamp l1 previousHash = some b1) :
    (∃ b2 : Block, NewBlock digest fuel index timestamp l2 previousHash = some b2 ∧
      (b2.nonce, b2.hash) = (b1.nonce, b1.hash)) ∧
    fmtStrings ["a b"] = fmtStrings ["a", "b"] ∧
    NewMerkleTree digest ["a b"] = some { transactions := ["a b"], root := digest "a b" } ∧
    NewMerkleTree digest ["a", "b"]
      = some { transactions := ["a", "b"], root := digest (digest "a" ++ digest "b") } := by
  refine ⟨?_, by decide, rfl, rfl⟩
  obtain ⟨mined, r, hm, -, rfl⟩ := (NewBlock_eq_some_iff digest fuel _ _ _ _ _).mp h1
  obtain ⟨j, hj, hmiss, hhit, rfl⟩ := (Block.calculateHash_eq_some_iff digest fuel _ _).mp hm
  simp only at hmiss hhit
  obtain ⟨r2, hr2⟩ := NewMerkleTree_total digest l2
  have hm2 : Block.calculateHash digest fuel
      { index := index, timestamp := timestamp, transactions := l2,
        previousHash := previousHash, hash := "", merkleRoot := "", nonce := 0 }
      = some { index := index, timestamp := timestamp, transactions := l2,
               previousHash := previousHash,
               hash := digest (serialize index timestamp l2 previousHash (nonceAt 0 j)),
               merkleRoot := "", nonce := nonceAt 0 j } := by
    rw [Block.calculateHash_eq_some_iff]
    refine ⟨j, hj, ?_, ?_, rfl⟩
    · intro i hi
      have := hmiss i hi
      rw [serialize_congr index timestamp l1 l2 previousHash _ hfmt] at this
      exact this
    · rw [serialize_congr index timestamp l1 l2 previousHash _ hfmt] at hhit
      exact hhit
  refine ⟨_, (NewBlock_eq_some_iff digest fuel _ _ _ _ _).mpr ⟨_, r2, hm2, hr2, rfl⟩, ?_⟩
  show (nonceAt 0 j, digest (serialize index timestamp l2 previousHash (nonceAt 0 j)))
    = (nonceAt 0 j, digest (serialize index timestamp l1 previousHash (nonceAt 0 j)))
  rw [serialize_congr index timestamp l1 l2 previousHash _ hfmt]

/-- C20 on the program: from the records `a b` and from the records `a`, `b`,
`NewBlock` returns blocks with the same nonce 1 and the same hash, and with
different Merkle roots. -/
theorem C20_search_sees_rendering_only_witness :
    ((∃ b2 : Block,
        NewBlock sha256Hex 1000000 1 1700312427 ["a", "b"] exGenesis.hash = some b2 ∧
        (b2.nonce, b2.hash) = (exSpaced.nonce, exSpaced.hash)) ∧
      fmtStrings ["a b"] = fmtStrings ["a", "b"] ∧
      NewMerkleTree sha256Hex ["a b"]
        = some { transactions := ["a b"], root := sha256Hex "a b" } ∧
      NewMerkleTree sha256Hex ["a", "b"]
        = some { transactions := ["a", "b"],
                 root := sha256Hex (sha256Hex "a" ++ sha256Hex "b") }) ∧
    NewBlock sha256Hex 1000000 1 1700312427 ["a", "b"] exGenesis.hash = some exSplit ∧
    (exSplit.nonce, exSplit.hash) = (exSpaced.nonce, exSpaced.hash) ∧
    exSplit.merkleRoot ≠ exSpaced.merkleRoot :=
  ⟨C20_search_sees_rendering_only sha256Hex 1000000 1 1700312427 exGenesis.hash
      ["a b"] ["a", "b"] exSpaced (by decide) exSpaced_newBlock,
    exSplit_newBlock, rfl, by decide⟩

/-! ## Binding of the Merkle root

Equal roots of two record lists of the same length are traced back, round by
round, to two different strings with the same digest among the strings the two
constructions hash (`MerkleTree.hashedInputs`). -/

theorem String.append_split_of_length (x x' y y' : String) (hlen : x.length = x'.length)
    (h : x ++ y = x' ++ y') : x = x' ∧ y = y' := by
  have hd : x.data ++ y.data = x'.data ++ y'.data := by
    rw [← String.data_append, ← String.data_append, h]
  obtain ⟨h1, h2⟩ := List.append_inj hd hlen
  exact ⟨String.ext h1, String.ext h2⟩

/-- A round of the loop hashes exactly the strings of `layerInputs`: the new layer
is their digests, followed by the last element of the old layer when its length
is odd. -/
theorem MerkleTree.reduceLayer_eq_map_layerInputs (digest : String → String) :
    ∀ l : List String, MerkleTree.reduceLayer digest l
      = (MerkleTree.layerInputs l).map (MerkleTree.hashTransaction digest)
        ++ (if l.length % 2 = 1 then l.getLast?.toList else [])
  | [] => rfl
  | [_] => rfl
  | a :: b :: rest => by
    have ih := MerkleTree.reduceLayer_eq_map_layerInputs digest rest
    rw [MerkleTree.reduceLayer, MerkleTree.layerInputs, List.map_cons, List.cons_append, ih]
    congr 2
    by_cases hodd : rest.length % 2 = 1
    · have h2 : (a :: b :: rest).length % 2 = 1 := by
        simp only [List.length_cons]
        omega
      rw [if_pos hodd, if_pos h2]
      cases rest with
      | nil => simp at hodd
      | cons c rest => rfl
    · have h2 : ¬ (a :: b :: rest).length % 2 = 1 := by
        simp only [List.length_cons]
        omega
      rw [if_neg hodd, if_neg h2]

theorem MerkleTree.reduceLayer_mem (digest : String → String) (S : String → Prop)
    (hS : ∀ u, S (digest u)) :
    ∀ l : List String, (∀ x ∈ l, S x) → ∀ x ∈ MerkleTree.reduceLayer digest l, S x
  | [], _, x, hx => by simp [MerkleTree.reduceLayer] at hx
  | [a], h, x, hx => by
    simp only [MerkleTree.reduceLayer] at hx
    exact h x hx
  | a :: b :: rest, h, x, hx => by
    simp only [MerkleTree.reduceLayer, List.mem_cons] at hx
    rcases hx with rfl | hx
    · exact hS _
    · exact MerkleTree.reduceLayer_mem digest S hS rest
        (fun z hz => h z (List.mem_cons_of_mem _ (List.mem_cons_of_mem _ hz))) x hx

theorem MerkleTree.reduceLayer_binding (digest : String → String) (S : String → Prop)
    (hsplit : ∀ x x' y y', S x → S x' → x ++ y = x' ++ y' → x = x' ∧ y = y') :
    ∀ l1 l2 : List String, l1.length = l2.length →
      (∀ x ∈ l1, S x) → (∀ x ∈ l2, S x) →
      MerkleTree.reduceLayer digest l1 = MerkleTree.reduceLayer digest l2 →
      l1 = l2 ∨ ∃ x y : String, x ∈ MerkleTree.layerInputs l1 ∧
        y ∈ MerkleTree.layerInputs l2 ∧ x ≠ y ∧ digest x = digest y
  | [], [], _, _, _, _ => Or.inl rfl
  | [], _ :: _, hlen, _, _, _ => by simp at hlen
  | _ :: _, [], hlen, _, _, _ => by simp at hlen
  | [a], [a'], _, _, _, h => by
    simp only [MerkleTree.reduceLayer] at h
    exact Or.inl h
  | [_], _ :: _ :: _, hlen, _, _, _ => by simp at hlen
  | _ :: _ :: _, [_], hlen, _, _, _ => by simp at hlen
  | a :: b :: rest, a' :: b' :: rest', hlen, h1, h2, h => by
    simp only [MerkleTree.reduceLayer, MerkleTree.hashTransaction, List.cons.injEq] at h
    by_cases hc : a ++ b = a' ++ b'
    · obtain ⟨ha, hb⟩ := hsplit a a' b b' (h1 a (List.mem_cons_self _ _))
        (h2 a' (List.mem_cons_self _ _)) hc
      have hrest := MerkleTree.reduceLayer_binding digest S hsplit rest rest'
        (by simpa using hlen)
        (fun z hz => h1 z (List.mem_cons_of_mem _ (List.mem_cons_of_mem _ hz)))
        (fun z hz => h2 z (List.mem_cons_of_mem _ (List.mem_cons_of_mem _ hz))) h.2
      rcases hrest with hr | ⟨x, y, hx, hy, hxy, hd⟩
      · exact Or.inl (by rw [ha, hb, hr])
      · exact Or.inr ⟨x, y, List.mem_cons_of_mem _ hx, List.mem_cons_of_mem _ hy, hxy, hd⟩
    · exact Or.inr ⟨a ++ b, a' ++ b', List.mem_cons_self _ _, List.mem_cons_self _ _, hc, h.1⟩

theorem MerkleTree.reduceLoop_binding (digest : String → String) (S : String → Prop)
    (hS : ∀ u, S (digest u))
    (hsplit : ∀ x x' y y', S x → S x' → x ++ y = x' ++ y' → x = x' ∧ y = y') :
    ∀ (rounds : Nat) (l1 l2 : List String), l1.length = l2.length →
      (∀ x ∈ l1, S x) → (∀ x ∈ l2, S x) →
      MerkleTree.reduceLoop digest rounds l1 = MerkleTree.reduceLoop digest rounds l2 →
      l1 = l2 ∨ ∃ x y : String, x ∈ MerkleTree.loopInputs digest rounds l1 ∧
        y ∈ MerkleTree.loopInputs digest rounds l2 ∧ x ≠ y ∧ digest x = digest y
  | 0, _, _, _, _, _, h => Or.inl h
  | rounds + 1, l1, l2, hlen, h1, h2, h => by
    rw [MerkleTree.reduceLoop, MerkleTree.reduceLoop, ← hlen] at h
    rw [MerkleTree.loopInputs, MerkleTree.loopInputs, ← hlen]
    split_ifs at h ⊢ with hgt
    · have hnext := MerkleTree.reduceLoop_binding digest S hS hsplit rounds
        (MerkleTree.reduceLayer digest l1) (MerkleTree.reduceLayer digest l2)
        (by rw [MerkleTree.reduceLayer_length, MerkleTree.reduceLayer_length, hlen])
        (MerkleTree.reduceLayer_mem digest S hS l1 h1)
        (MerkleTree.reduceLayer_mem digest S hS l2 h2) h
      rcases hnext with hr | ⟨x, y, hx, hy, hxy, hd⟩
      · rcases MerkleTree.reduceLayer_binding digest S hsplit l1 l2 hlen h1 h2 hr with
          hl | ⟨x, y, hx, hy, hxy, hd⟩
        · exact Or.inl hl
        · exact Or.inr ⟨x, y, List.mem_append_left _ hx, List.mem_append_left _ hy, hxy, hd⟩
      · exact Or.inr ⟨x, y, List.mem_append_right _ hx, List.mem_append_right _ hy, hxy, hd⟩
    · exact Or.inl h

theorem MerkleTree.leaves_binding (digest : String → String) :
    ∀ l1 l2 : List String, l1.map digest = l2.map digest →
      l1 = l2 ∨ ∃ x y : String, x ∈ l1 ∧ y ∈ l2 ∧ x ≠ y ∧ digest x = digest y
  | [], [], _ => Or.inl rfl
  | [], _ :: _, h => by simp at h
  | _ :: _, [], h => by simp at h
  | a :: l1, b :: l2, h => by
    simp only [List.map_cons, List.cons.injEq] at h
    by_cases hab : a = b
    · rcases MerkleTree.leaves_binding digest l1 l2 h.2 with hr | ⟨x, y, hx, hy, hxy, hd⟩
      · exact Or.inl (by rw [hab, hr])
      · exact Or.inr ⟨x, y, List.mem_cons_of_mem _ hx, List.mem_cons_of_mem _ hy, hxy, hd⟩
    · exact Or.inr ⟨a, b, List.mem_cons_self _ _, List.mem_cons_self _ _, hab, h.1⟩

theorem NewMerkleTree_binding (digest : String → String) (S : String → Prop)
    (hS : ∀ u, S (digest u))
    (hsplit : ∀ x x' y y', S x → S x' → x ++ y = x' ++ y' → x = x' ∧ y = y')
    (l1 l2 : List String) (hlen : l1.length = l2.length)
    (hroot : (NewMerkleTree digest l1).map MerkleTree.root
      = (NewMerkleTree digest l2).map MerkleTree.root) :
    l1 = l2 ∨ ∃ x y : String, x ∈ MerkleTree.hashedInputs digest l1 ∧
      y ∈ MerkleTree.hashedInputs digest l2 ∧ x ≠ y ∧ digest x = digest y := by
  by_cases h1 : l1 = []
  · subst h1
    left
    exact (List.length_eq_zero.mp hlen.symm).symm
  · have h2 : l2 ≠ [] := by
      intro h2
      subst h2
      exact h1 (List.length_eq_zero.mp hlen)
    obtain ⟨r1, hr1, ht1⟩ := NewMerkleTree_of_ne_nil digest l1 h1
    obtain ⟨r2, hr2, ht2⟩ := NewMerkleTree_of_ne_nil digest l2 h2
    rw [ht1, ht2] at hroot
    simp only [Option.map_some', Option.some.injEq] at hroot
    subst hroot
    have hloop : MerkleTree.reduceLoop digest l1.length (l1.map digest)
        = MerkleTree.reduceLoop digest l1.length (l2.map digest) := by
      rw [hr1, hlen, hr2]
    have hmem : ∀ l : List String, ∀ x ∈ l.map digest, S x := by
      intro l x hx
      obtain ⟨u, -, rfl⟩ := List.mem_map.mp hx
      exact hS u
    have hfun : MerkleTree.hashTransaction digest = digest := rfl
    unfold MerkleTree.hashedInputs
    rw [hfun, ← hlen]
    rcases MerkleTree.reduceLoop_binding digest S hS hsplit l1.length (l1.map digest)
        (l2.map digest) (by rw [List.length_map, List.length_map, hlen])
        (hmem l1) (hmem l2) hloop with hl | ⟨x, y, hx, hy, hxy, hd⟩
    · rcases MerkleTree.leaves_binding digest l1 l2 hl with he | ⟨x, y, hx, hy, hxy, hd⟩
      · exact Or.inl he
      · exact Or.inr ⟨x, y, List.mem_append_left _ hx, List.mem_append_left _ hy, hxy, hd⟩
    · exact Or.inr ⟨x, y, List.mem_append_right _ hx, List.mem_append_right _ hy, hxy, hd⟩

theorem sha256Hex_length (s : String) : (sha256Hex s).length = 64 := by
  unfold sha256Hex Sha256.hex
  show (Sha256.hexWord _ ++ Sha256.hexWord _ ++ Sha256.hexWord _ ++ Sha256.hexWord _
    ++ Sha256.hexWord _ ++ Sha256.hexWord _ ++ Sha256.hexWord _ ++ Sha256.hexWord _).length = 64
  simp [Sha256.hexWord]

theorem firstHexDigit_length (s : String) : (firstHexDigit s).length = 1 := by
  have h : (sha256Hex s).data.length = 64 := sha256Hex_length s
  show ((sha256Hex s).data.take 1).length = 1
  rw [List.length_take, h]
  rfl

set_option maxRecDepth 100000 in
theorem firstHexDigit_roots :
    (NewMerkleTree firstHexDigit ["A", "B"]).map MerkleTree.root
      = (NewMerkleTree firstHexDigit ["P", "B"]).map MerkleTree.root := by
  decide

set_option maxRecDepth 100000 in
theorem firstHexDigit_separates : firstHexDigit "A" ≠ firstHexDigit "B" := by
  decide

/-- The collision in the conclusion of the binding theorem is not there for free:
with the one-character digest `firstHexDigit`, the one-record lists `A` and `B`
are different and neither construction hashes two different strings with the
same digest. Their roots differ. -/
theorem hashedInputs_no_collision_without_equal_roots :
    (∀ s t : String, (firstHexDigit s).length = (firstHexDigit t).length) ∧
    ["A"].length = ["B"].length ∧
    ¬ (["A"] = ["B"] ∨ ∃ x y : String, x ∈ MerkleTree.hashedInputs firstHexDigit ["A"] ∧
      y ∈ MerkleTree.hashedInputs firstHexDigit ["B"] ∧ x ≠ y ∧
      firstHexDigit x = firstHexDigit y) := by
  refine ⟨fun s t => (firstHexDigit_length s).trans (firstHexDigit_length t).symm, rfl, ?_⟩
  rintro (h | ⟨x, y, hx, hy, -, hd⟩)
  · exact absurd h (by decide)
  · have hA : MerkleTree.hashedInputs firstHexDigit ["A"] = ["A"] := rfl
    have hB : MerkleTree.hashedInputs firstHexDigit ["B"] = ["B"] := rfl
    rw [hA, List.mem_singleton] at hx
    rw [hB, List.mem_singleton] at hy
    subst hx
    subst hy
    exact firstHexDigit_separates hd

/-- C19: when every digest has the same length, two record lists of the same
length whose Merkle roots are equal are the same list, or else the equality of
the roots exhibits a collision of the digest: two different strings with the
same digest, the first among the strings hashed in building the tree of the
first list and the second among those hashed for the second list. -/
theorem C19_equal_roots_give_collision (digest : String → String)
    (hfixed : ∀ s t : String, (digest s).length = (digest t).length)
    (l1 l2 : List String) (hlen : l1.length = l2.length)
    (hroot : (NewMerkleTree digest l1).map MerkleTree.root
      = (NewMerkleTree digest l2).map MerkleTree.root) :
    l1 = l2 ∨ ∃ x y : String, x ∈ MerkleTree.hashedInputs digest l1 ∧
      y ∈ MerkleTree.hashedInputs digest l2 ∧ x ≠ y ∧ digest x = digest y := by
  refine NewMerkleTree_binding digest (fun x => x.length = (digest "").length)
    (fun u => hfixed u "") ?_ l1 l2 hlen hroot
  intro x x' y y' hx hx' h
  exact String.append_split_of_length x x' y y' (hx.trans hx'.symm) h

/-- C19 on the one-character digest `firstHexDigit` and the different lists
`["A", "B"]` and `["P", "B"]`, whose roots are equal: a collision is found among
the strings the two constructions hash. -/
theorem C19_equal_roots_give_collision_witness :
    ["A", "B"] ≠ ["P", "B"] ∧
    (NewMerkleTree firstHexDigit ["A", "B"]).map MerkleTree.root
      = (NewMerkleTree firstHexDigit ["P", "B"]).map MerkleTree.root ∧
    (["A", "B"] = ["P", "B"] ∨
      ∃ x y : String, x ∈ MerkleTree.hashedInputs firstHexDigit ["A", "B"] ∧
        y ∈ MerkleTree.hashedInputs firstHexDigit ["P", "B"] ∧ x ≠ y ∧
        firstHexDigit x = firstHexDigit y) :=
  ⟨by decide, firstHexDigit_roots,
    C19_equal_roots_give_collision firstHexDigit
      (fun s t => (firstHexDigit_length s).trans (firstHexDigit_length t).symm)
      ["A", "B"] ["P", "B"] rfl firstHexDigit_roots⟩

